import Mathlib

/-! # A shallow embedding of the `lispy` interpreter (`interpreter.h`, `main.cpp`)

The C++ program is a small Lisp: `tokenize`, `read_from_tokens`/`atom` (parser),
`Environment` (a chain of scopes), `eval` with the two call protocols
`Lambda::call` / `SpecialForm::call`, and `make_prelude`.

Modelling decisions, all taken from the source:

* `std::string` is a Lean `String`, read character by character through `String.data`.
* `long` is a 64-bit two's complement integer: an `Int` that arithmetic wraps with `wrapLong`.
* `ExpressionPtr` is a `shared_ptr` that may be null: `Option Expr`.
* a `LambdaContainer` (`std::function`) is one of the three closures the source ever builds:
  the `inner` of `make_numeric_function`, the `inner` of `make_special_form`, and the
  `inner` built by the `lambda` special form.
* `Environment` objects live on the C++ stack and point to their parent; here a child
  environment carries the current state of its parent chain, and whoever created the child
  reads the parent chain back when the child dies.
* every function that can call `exit(1)`, run into undefined behaviour, or recurse without
  bound returns an `Outcome`.
-/

namespace Lispy

/-! ## Outcomes -/

/-- What running a piece of the interpreter can lead to. -/
inductive Outcome (α : Type) where
  /-- The C++ function returned normally. -/
  | ret (a : α)
  /-- The process called `exit(1)` (every `assert_*` and the unbalanced `)` of the parser) -/
  | fatal
  /-- The C++ code ran into undefined behaviour (null dereference, `front()` of an empty
  deque, `list[0]` of an empty vector, a `static_cast` to the wrong class, division by zero).
  What the process does from there is not defined: it may crash, or go on and return
  something; the model says nothing about it. -/
  | undefined
  /-- The recursion budget of the model ran out before the C++ function returned -/
  | nofuel
  deriving Repr, DecidableEq

/-- Sequencing of two steps: the second runs only when the first returned. -/
def Outcome.bind {α β : Type} : Outcome α → (α → Outcome β) → Outcome β
  | .ret a, f => f a
  | .fatal, _ => .fatal
  | .undefined, _ => .undefined
  | .nofuel, _ => .nofuel

/-! ## Expressions -/

/-- The nine C++ lambdas handed to `make_numeric_function` in `make_prelude`. -/
inductive NumericFn where
  | add | sub | mul | div | lnot | land | lor | gt | eq
  deriving Repr, DecidableEq

/-- The three C++ lambdas handed to `make_special_form` in `make_prelude`. -/
inductive FormFn where
  | if_ | let_ | lambda_
  deriving Repr, DecidableEq

/-- The closures stored in a `Callable` (`LambdaContainer` in the source). -/
inductive LambdaContainer (E : Type) where
  /-- The `inner` of `make_numeric_function`: captures `function`, `sizeof...(S)` is `arity` -/
  | numeric (arity : Nat) (function : NumericFn)
  /-- The `inner` of `make_special_form`: captures `function`, `sizeof...(S)` is `arity` -/
  | special (arity : Nat) (function : FormFn)
  /-- The `inner` of the `lambda` special form: captures `raw_arg_names` and `executable`
  (and no environment) -/
  | closure (raw_arg_names : List String) (executable : Option E)
  deriving Repr

/-- The class hierarchy `Expression` / `Number` / `Symbol` / `List` / `Lambda` / `SpecialForm`.
The elements of a `List` are never null: the only `List` objects are built by
`read_from_tokens` from the results of `read_from_tokens`. -/
inductive Expr where
  | Number (number : Int)
  | Symbol (symbol : String)
  | List (list : List Expr)
  | Lambda (lambda : LambdaContainer Expr)
  | SpecialForm (lambda : LambdaContainer Expr)
  deriving Repr

/-- The `enum class Type`. -/
inductive Type_ where
  | SYMBOL | NUMBER | LIST | LAMBDA | SPECIAL_FORM
  deriving Repr, DecidableEq

/-- The `type` field every `Expression` is constructed with. -/
def Expr.type : Expr → Type_
  | .Number _ => .NUMBER
  | .Symbol _ => .SYMBOL
  | .List _ => .LIST
  | .Lambda _ => .LAMBDA
  | .SpecialForm _ => .SPECIAL_FORM

/-- A `std::shared_ptr<Expression>`: `none` is the null pointer. -/
abbrev ExpressionPtr := Option Expr

/-- A `std::vector<ExpressionPtr>`. -/
abbrev ExpressionsList := List ExpressionPtr

/-- A `std::unordered_map<std::string, ExpressionPtr>`, as an association list with one
entry per key (the map is never iterated, so the order of entries is not observable). -/
abbrev Locals := List (String × ExpressionPtr)

/-- A `std::deque<std::string>`; the head of the list is `front()`. -/
abbrev TokenList := List String

/-! ## Environment -/

/-- The class `Environment`: `locals` and a `parent` pointer, `nullptr` for `root`. -/
inductive Environment where
  | root (locals : Locals)
  | child (locals : Locals) (parent : Environment)
  deriving Repr

/-- The field `locals`. -/
def Environment.locals : Environment → Locals
  | .root l => l
  | .child l _ => l

/-- Replace the field `locals`. -/
def Environment.withLocals : Environment → Locals → Environment
  | .root _, l => .root l
  | .child _ p, l => .child l p

/-- The `locals.find(symbol)` of `std::unordered_map`: the mapped value, `none` for `end()`. -/
def Locals.find : Locals → String → Option ExpressionPtr
  | [], _ => none
  | (k, v) :: rest, symbol => if k = symbol then some v else Locals.find rest symbol

/-- Writing `v` through an iterator that `locals.find(symbol)` returned. -/
def Locals.store : Locals → String → ExpressionPtr → Locals
  | [], _, _ => []
  | (k, w) :: rest, symbol, v =>
    if k = symbol then (k, v) :: rest else (k, w) :: Locals.store rest symbol v

/-- The `Environment::find_inner`: the entry of the nearest scope that has `symbol`, looking
at `locals` first and then at the parent chain; `none` is `end_iterator`. -/
def Environment.find_inner : Environment → String → Option ExpressionPtr
  | .root locals, symbol => Locals.find locals symbol
  | .child locals parent, symbol =>
    match Locals.find locals symbol with
    | some v => some v
    | none => parent.find_inner symbol

/-- The `Environment::find`. -/
def Environment.find (env : Environment) (symbol : String) : Option ExpressionPtr :=
  env.find_inner symbol

/-- Writing `v` through the iterator `find(symbol)` returned: the entry of the nearest scope
that has `symbol` is overwritten, wherever in the chain it is. -/
def Environment.store : Environment → String → ExpressionPtr → Environment
  | .root locals, symbol, v => .root (Locals.store locals symbol v)
  | .child locals parent, symbol, v =>
    match Locals.find locals symbol with
    | some _ => .child (Locals.store locals symbol v) parent
    | none => .child locals (parent.store symbol v)

/-- Reading `env[symbol]` (`Environment::operator[]` used as an rvalue): the value found in
the chain, or, when `symbol` is nowhere in the chain, the null pointer that
`this->locals[symbol]` inserts into the local scope. Returns the value and the environment
after the call. -/
def Environment.subscript (env : Environment) (symbol : String) : ExpressionPtr × Environment :=
  match env.find symbol with
  | some v => (v, env)
  | none => (none, env.withLocals ((symbol, none) :: env.locals))

/-- The statement `env[symbol] = v` (`Environment::operator[]` used as an lvalue): the
reference `operator[]` returns is the entry found in the chain, or a fresh entry of the
local scope when there is none. -/
def Environment.assign (env : Environment) (symbol : String) (v : ExpressionPtr) : Environment :=
  match env.find symbol with
  | some _ => env.store symbol v
  | none => env.withLocals ((symbol, v) :: env.locals)

/-- What is left of the caller's environment when a child scope created by
`Environment(&env)` goes out of scope. -/
def Environment.parent : Environment → Environment
  | .root l => .root l
  | .child _ p => p

/-! ## Tokenizer -/

/-- One iteration of the `for` loop of `tokenize` on the character `c`; the state is
`(tokens, current_token)`. -/
def tokenize_step (st : TokenList × String) (c : Char) : TokenList × String :=
  if c = '(' ∨ c = ')' ∨ c = ' ' then
    let st1 : TokenList × String :=
      if st.2.length > 0 then (st.1 ++ [st.2], "") else st
    if c ≠ ' ' then (st1.1 ++ [String.singleton c], st1.2) else st1
  else
    (st.1, st.2.push c)

/-- The function `tokenize`: the loop over the characters of `code`, then `return tokens`
(the `current_token` still being built is not pushed). -/
def tokenize (code : String) : TokenList :=
  (code.data.foldl tokenize_step ([], "")).1

/-! ## Parser -/

/-- The largest `long` (LP64: 64 bits). -/
def LONG_MAX : Int := 9223372036854775807

/-- The smallest `long`. -/
def LONG_MIN : Int := -9223372036854775808

/-- Two's complement wrap-around of an integer into the range of `long`: what the `+`, `-`
and `*` of the target machine compute when the exact result does not fit (C++ leaves signed
overflow undefined; results that fit are not changed). -/
def wrapLong (z : Int) : Int := (z + 9223372036854775808) % 18446744073709551616 - 9223372036854775808

/-- The `isspace` of the C locale: space, `\t`, `\n`, `\v`, `\f`, `\r`. -/
def isspace (c : Char) : Bool :=
  c = ' ' || c = Char.ofNat 9 || c = Char.ofNat 10 || c = Char.ofNat 11 || c = Char.ofNat 12
    || c = Char.ofNat 13

/-- The value of a run of decimal digits, most significant first. -/
def digitsValue (digits : List Char) : Nat :=
  digits.foldl (fun acc d => 10 * acc + (d.toNat - 48)) 0

/-- The C library call `strtol(nptr, &end, 10)` as ISO C defines it: skip white space, read
an optional sign and then the longest run of decimal digits; the value saturates at
`LONG_MIN` / `LONG_MAX`; without any digit nothing is converted, the value is 0 and `end` is
`nptr`. Returns the value and the characters `end` points to. -/
def strtol (nptr : List Char) : Int × List Char :=
  let s := nptr.dropWhile isspace
  let negative := s.head? = some '-'
  let s1 := if s.head? = some '-' ∨ s.head? = some '+' then s.tail else s
  let digits := s1.takeWhile Char.isDigit
  if digits = [] then (0, nptr)
  else
    let magnitude : Int := digitsValue digits
    let value : Int := if negative then -magnitude else magnitude
    (max LONG_MIN (min LONG_MAX value), s1.dropWhile Char.isDigit)

/-- The characters `token.c_str()` exposes to a C function: those before the first NUL. -/
def c_str (token : String) : List Char :=
  token.data.takeWhile (fun c => c ≠ Char.ofNat 0)

/-- The function `atom`: a `Number` when `strtol` stopped at the terminating NUL
(`*end == 0`), a `Symbol` holding the token otherwise. -/
def atom (token : String) : Expr :=
  let r := strtol (c_str token)
  if r.2 = [] then .Number r.1 else .Symbol token

mutual
/-- The function `read_from_tokens` with a recursion budget: returns the expression and the
tokens left in the deque. -/
def read_from_tokens_fuel : Nat → TokenList → Outcome (Expr × TokenList)
  | 0, _ => .nofuel
  | _ + 1, [] => .undefined
  | fuel + 1, current_token :: tokens =>
    if current_token = "(" then
      read_from_tokens_loop fuel tokens []
    else if current_token = ")" then
      .fatal
    else
      .ret (atom current_token, tokens)
/-- The `while(tokens.front() != ")")` loop of `read_from_tokens`, followed by
`tokens.pop_front()` and the construction of the `List`. -/
def read_from_tokens_loop : Nat → TokenList → List Expr → Outcome (Expr × TokenList)
  | 0, _, _ => .nofuel
  | _ + 1, [], _ => .undefined
  | fuel + 1, front :: tokens, parsed_token_list =>
    if front = ")" then
      .ret (.List parsed_token_list, tokens)
    else
      match read_from_tokens_fuel fuel (front :: tokens) with
      | .ret (next_parsed_token, tokens1) =>
        read_from_tokens_loop fuel tokens1 (parsed_token_list ++ [next_parsed_token])
      | .fatal => .fatal
      | .undefined => .undefined
      | .nofuel => .nofuel
end

/-- The function `read_from_tokens`. Every call and every loop iteration consumes a token,
so a budget of twice the number of tokens (plus one) is never exhausted. -/
def read_from_tokens (tokens : TokenList) : Outcome (Expr × TokenList) :=
  read_from_tokens_fuel (2 * tokens.length + 1) tokens

/-! ## Evaluator -/

/-- The function `assert_symbolic`. -/
def assert_symbolic (type : Type_) : Outcome Unit :=
  if type ≠ .SYMBOL then .fatal else .ret ()

/-- The function `assert_list`. -/
def assert_list (type : Type_) : Outcome Unit :=
  if type ≠ .LIST then .fatal else .ret ()

/-- The function `assert_callable` (the source defines it and never calls it). -/
def assert_callable (type : Type_) : Outcome Unit :=
  if type ≠ .LAMBDA ∧ type ≠ .SPECIAL_FORM then .fatal else .ret ()

/-- The function `assert_numeric` (its only call, in `make_numeric_function`, is commented
out in the source). -/
def assert_numeric (type : Type_) : Outcome Unit :=
  if type ≠ .NUMBER then .fatal else .ret ()

/-- The function `assert_arity`. -/
def assert_arity (args : ExpressionsList) (arity : Nat) : Outcome Unit :=
  if args.length ≠ arity then .fatal else .ret ()

/-- The function `truthiness`; `expr->type` on a null pointer is undefined. -/
def truthiness : ExpressionPtr → Outcome Bool
  | none => .undefined
  | some (.Number number) => .ret (number != 0)
  | some (.List list) => .ret (list.length > 0)
  | some _ => .ret true

/-- The expression `static_cast<Number*>(args[S].get())->number` of `make_numeric_function`:
defined only when the pointer is a `Number` (no `assert_numeric` guards it). -/
def as_number : ExpressionPtr → Outcome Int
  | some (.Number number) => .ret number
  | _ => .undefined

/-- A C++ `bool` converted to `long`. -/
def boolToLong (b : Bool) : Int := if b then 1 else 0

/-- The bodies of the nine lambdas handed to `make_numeric_function`, applied to the operands
read from the arguments. Results wrap to 64 bits; `/` truncates toward zero and is undefined
for a zero divisor and for `LONG_MIN / -1`. -/
def NumericFn.apply : NumericFn → List Int → Outcome Int
  | .add, [lhs, rhs] => .ret (wrapLong (lhs + rhs))
  | .sub, [lhs, rhs] => .ret (wrapLong (lhs - rhs))
  | .mul, [lhs, rhs] => .ret (wrapLong (lhs * rhs))
  | .div, [lhs, rhs] =>
    if rhs = 0 ∨ (lhs = LONG_MIN ∧ rhs = -1) then .undefined else .ret (Int.tdiv lhs rhs)
  | .lnot, [value] => .ret (boolToLong (value == 0))
  | .land, [lhs, rhs] => .ret (boolToLong (lhs != 0 && rhs != 0))
  | .lor, [lhs, rhs] => .ret (boolToLong (lhs != 0 || rhs != 0))
  | .gt, [lhs, rhs] => .ret (boolToLong (decide (lhs > rhs)))
  | .eq, [lhs, rhs] => .ret (boolToLong (lhs == rhs))
  | _, _ => .undefined

/-- Reading the operands `args[S]...` of a numeric primitive, left to right. -/
def numeric_operands : ExpressionsList → Outcome (List Int)
  | [] => .ret []
  | a :: rest =>
    match as_number a with
    | .ret n =>
      match numeric_operands rest with
      | .ret ns => .ret (n :: ns)
      | .fatal => .fatal
      | .undefined => .undefined
      | .nofuel => .nofuel
    | .fatal => .fatal
    | .undefined => .undefined
    | .nofuel => .nofuel

/-- The loop of the `lambda` special form that turns `arg_names` into `raw_arg_names`:
`assert_symbolic(expr->type)` and then the `static_cast` to `Symbol*`, for every element. -/
def raw_arg_names_of : List Expr → Outcome (List String)
  | [] => .ret []
  | expr :: rest =>
    (assert_symbolic expr.type).bind fun _ =>
      match expr with
      | .Symbol symbol => (raw_arg_names_of rest).bind fun names => .ret (symbol :: names)
      | _ => .undefined

/-- The loop `child_env[raw_arg_names[arg_idx]] = arg_values[arg_idx]` of a closure (the
two vectors have the same length when it runs). -/
def bind_arguments : Environment → List String → ExpressionsList → Environment
  | child_env, name :: names, value :: values =>
    bind_arguments (child_env.assign name value) names values
  | child_env, _, _ => child_env

/-- The type of `eval`, which the call protocols below receive as `ev` (the source declares
`eval` ahead of the classes that call it). -/
abbrev Evaluator := ExpressionPtr → Environment → Outcome (ExpressionPtr × Environment)

/-- The `for` loop of `Lambda::call`: `args.push_back(eval(*iter, env))` for every operand,
left to right, in the calling environment. -/
def eval_operands (ev : Evaluator) : List Expr → Environment → Outcome (ExpressionsList × Environment)
  | [], env => .ret ([], env)
  | operand :: rest, env =>
    match ev (some operand) env with
    | .ret (value, env1) =>
      match eval_operands ev rest env1 with
      | .ret (values, env2) => .ret (value :: values, env2)
      | .fatal => .fatal
      | .undefined => .undefined
      | .nofuel => .nofuel
    | .fatal => .fatal
    | .undefined => .undefined
    | .nofuel => .nofuel

/-- The body of the lambda handed to `make_special_form` for `if`. -/
def special_if (ev : Evaluator) (env : Environment) (cond case_true case_false : ExpressionPtr) :
    Outcome (ExpressionPtr × Environment) :=
  match ev cond env with
  | .ret (result, env1) =>
    match truthiness result with
    | .ret true => ev case_true env1
    | .ret false => ev case_false env1
    | .fatal => .fatal
    | .undefined => .undefined
    | .nofuel => .nofuel
  | .fatal => .fatal
  | .undefined => .undefined
  | .nofuel => .nofuel

/-- The body of the lambda handed to `make_special_form` for `let`. The `static_cast` of
`symbol` to `Symbol*` is not guarded by `assert_symbolic`; in `child_env[name] = eval(value,
env)` the right operand is evaluated first (C++17), in `env`, the parent of `child_env`. When
`child_env` dies the caller keeps `env` as the evaluation of `executable` left it. -/
def special_let (ev : Evaluator) (env : Environment) (symbol value executable : ExpressionPtr) :
    Outcome (ExpressionPtr × Environment) :=
  match symbol with
  | some (.Symbol name) =>
    match ev value env with
    | .ret (v, env1) =>
      match ev executable ((Environment.child [] env1).assign name v) with
      | .ret (result, child_env) => .ret (result, child_env.parent)
      | .fatal => .fatal
      | .undefined => .undefined
      | .nofuel => .nofuel
    | .fatal => .fatal
    | .undefined => .undefined
    | .nofuel => .nofuel
  | _ => .undefined

/-- The body of the lambda handed to `make_special_form` for `lambda`:
`assert_list(arg_names->type)`, the `static_cast` to `List*`, the loop with `assert_symbolic`,
and the construction of the `Lambda` around `inner`, which captures `raw_arg_names` and
`executable`. -/
def special_lambda (env : Environment) (arg_names executable : ExpressionPtr) :
    Outcome (ExpressionPtr × Environment) :=
  match arg_names with
  | none => .undefined
  | some expr =>
    (assert_list expr.type).bind fun _ =>
      match expr with
      | .List list =>
        (raw_arg_names_of list).bind fun raw_arg_names =>
          .ret (some (.Lambda (.closure raw_arg_names executable)), env)
      | _ => .undefined

/-- Calling `this->lambda(env, args)`: the three `inner` closures of the source.

* `make_numeric_function`: `assert_arity`, then the operands are read as `Number`s and
  `function` is applied; the environment is not touched.
* `make_special_form`: `assert_arity`, then `function(env, args[S]...)`.
* the `lambda` form: `child_env = Environment(&env)` where `env` is the parameter of `inner`,
  that is the environment passed by the caller; `assert_arity`; the binding loop;
  `eval(executable, child_env)`. -/
def LambdaContainer.invoke (ev : Evaluator) :
    LambdaContainer Expr → Environment → ExpressionsList → Outcome (ExpressionPtr × Environment)
  | .numeric arity function, env, args =>
    match assert_arity args arity with
    | .ret () =>
      match numeric_operands args with
      | .ret operands =>
        match function.apply operands with
        | .ret result => .ret (some (.Number result), env)
        | .fatal => .fatal
        | .undefined => .undefined
        | .nofuel => .nofuel
      | .fatal => .fatal
      | .undefined => .undefined
      | .nofuel => .nofuel
    | .fatal => .fatal
    | .undefined => .undefined
    | .nofuel => .nofuel
  | .special arity function, env, args =>
    match assert_arity args arity with
    | .ret () =>
      match function, args with
      | .if_, [cond, case_true, case_false] => special_if ev env cond case_true case_false
      | .let_, [symbol, value, executable] => special_let ev env symbol value executable
      | .lambda_, [arg_names, executable] => special_lambda env arg_names executable
      | _, _ => .undefined
    | .fatal => .fatal
    | .undefined => .undefined
    | .nofuel => .nofuel
  | .closure raw_arg_names executable, env, arg_values =>
    match assert_arity arg_values raw_arg_names.length with
    | .ret () =>
      match ev executable (bind_arguments (Environment.child [] env) raw_arg_names arg_values) with
      | .ret (result, child_env) => .ret (result, child_env.parent)
      | .fatal => .fatal
      | .undefined => .undefined
      | .nofuel => .nofuel
    | .fatal => .fatal
    | .undefined => .undefined
    | .nofuel => .nofuel

/-- The method `Lambda::call`: the operands `list->list.begin()+1 ..` are evaluated in the
calling environment, then the container is invoked with that same environment. -/
def Lambda.call (ev : Evaluator) (lambda : LambdaContainer Expr) (env : Environment)
    (list : List Expr) : Outcome (ExpressionPtr × Environment) :=
  match eval_operands ev list.tail env with
  | .ret (args, env1) => lambda.invoke ev env1 args
  | .fatal => .fatal
  | .undefined => .undefined
  | .nofuel => .nofuel

/-- The method `SpecialForm::call`: the operands are passed as they are. -/
def SpecialForm.call (ev : Evaluator) (lambda : LambdaContainer Expr) (env : Environment)
    (list : List Expr) : Outcome (ExpressionPtr × Environment) :=
  lambda.invoke ev env (list.tail.map some)

/-- The function `eval`, with a budget for the depth of nested `eval` calls. Returns the
value and the environment as the evaluation left it.

In the `LIST` case `list->list[0]` of an empty vector is undefined, and the head value is
`static_cast` to `Callable*` without `assert_callable`, so a head that is null or not a
`Lambda`/`SpecialForm` is undefined behaviour. -/
def eval : Nat → Evaluator
  | 0, _, _ => .nofuel
  | _ + 1, none, _ => .undefined
  | _ + 1, some (.Number number), env => .ret (some (.Number number), env)
  | _ + 1, some (.Lambda lambda), env => .ret (some (.Lambda lambda), env)
  | _ + 1, some (.SpecialForm lambda), env => .ret (some (.SpecialForm lambda), env)
  | _ + 1, some (.Symbol symbol), env => .ret (env.subscript symbol)
  | _ + 1, some (.List []), _ => .undefined
  | fuel + 1, some (.List (first :: rest)), env =>
    match eval fuel (some first) env with
    | .ret (some (.Lambda lambda), env1) => Lambda.call (eval fuel) lambda env1 (first :: rest)
    | .ret (some (.SpecialForm lambda), env1) =>
      SpecialForm.call (eval fuel) lambda env1 (first :: rest)
    | .ret (_, _) => .undefined
    | .fatal => .fatal
    | .undefined => .undefined
    | .nofuel => .nofuel

/-- The function `eval_string`. -/
def eval_string (fuel : Nat) (code : String) (env : Environment) :
    Outcome (ExpressionPtr × Environment) :=
  match read_from_tokens (tokenize code) with
  | .ret (expressions, _) => eval fuel (some expressions) env
  | .fatal => .fatal
  | .undefined => .undefined
  | .nofuel => .nofuel

/-! ## Prelude -/

/-- The function template `make_numeric_function<N>(function)`. -/
def make_numeric_function (N : Nat) (function : NumericFn) : ExpressionPtr :=
  some (.Lambda (.numeric N function))

/-- The function template `make_special_form<N>(function)`. -/
def make_special_form (N : Nat) (function : FormFn) : ExpressionPtr :=
  some (.SpecialForm (.special N function))

/-- The assignments of `make_prelude` up to `globals["="]`, before the three derived
primitives are evaluated from source text. -/
def make_prelude_primitives : Environment :=
  let globals := Environment.root []
  let globals := globals.assign "if" (make_special_form 3 .if_)
  let globals := globals.assign "let" (make_special_form 3 .let_)
  let globals := globals.assign "lambda" (make_special_form 2 .lambda_)
  let globals := globals.assign "+" (make_numeric_function 2 .add)
  let globals := globals.assign "-" (make_numeric_function 2 .sub)
  let globals := globals.assign "*" (make_numeric_function 2 .mul)
  let globals := globals.assign "/" (make_numeric_function 2 .div)
  let globals := globals.assign "!" (make_numeric_function 1 .lnot)
  let globals := globals.assign "&&" (make_numeric_function 2 .land)
  let globals := globals.assign "||" (make_numeric_function 2 .lor)
  let globals := globals.assign ">" (make_numeric_function 2 .gt)
  globals.assign "=" (make_numeric_function 2 .eq)

/-- One statement `globals[name] = eval_string(code, globals)` of `make_prelude`. -/
def define_from_source (fuel : Nat) (name code : String) (globals : Environment) :
    Outcome Environment :=
  match eval_string fuel code globals with
  | .ret (value, globals1) => .ret (globals1.assign name value)
  | .fatal => .fatal
  | .undefined => .undefined
  | .nofuel => .nofuel

/-- The function `make_prelude`; `fuel` is the budget of each of its three `eval_string`
calls. -/
def make_prelude (fuel : Nat) : Outcome Environment :=
  (define_from_source fuel ">=" "(lambda (lhs rhs) (|| (> lhs rhs) (= lhs rhs)))"
    make_prelude_primitives).bind fun globals =>
  (define_from_source fuel "<" "(lambda (lhs rhs) (! (>= lhs rhs)))" globals).bind fun globals =>
  define_from_source fuel "<=" "(lambda (lhs rhs) (! (> lhs rhs)))" globals

/-- The function `run_single_example` of `main.cpp` on a fresh prelude (as `run_examples`
builds it), returning the value it prints. -/
def run_single_example (fuel : Nat) (code : String) : Outcome ExpressionPtr :=
  (make_prelude fuel).bind fun globals =>
  (eval_string fuel code globals).bind fun r => .ret r.1

/-! ## Definitions used to state the properties -/

/-- One evaluator extends another: it agrees with it wherever the other has an outcome
within its budget. -/
def Evaluator.le (ev ev' : Evaluator) : Prop :=
  ∀ e env, ev e env ≠ .nofuel → ev' e env = ev e env

/-- The environment `make_prelude()` returns (three nested `eval` calls are enough for the
`eval_string` calls inside `make_prelude`). -/
def prelude_globals : Environment :=
  match make_prelude 3 with
  | .ret globals => globals
  | _ => .root []

/-- The declared parameter count of a callable: `sizeof...(S)` for a primitive or a special
form, `raw_arg_names.size()` for a closure. -/
def declared_arity : LambdaContainer Expr → Nat
  | .numeric arity _ => arity
  | .special arity _ => arity
  | .closure raw_arg_names _ => raw_arg_names.length

/-- An integer literal as the specification words it: an optional sign (`+` or `-`)
followed by one or more decimal digits, and nothing else. -/
def isIntegerLiteral (name : String) : Bool :=
  let s := name.data
  let s1 := if s.head? = some '-' ∨ s.head? = some '+' then s.tail else s
  !s1.isEmpty && s1.all Char.isDigit

/-- The names that `atom` turns into a `Number`: the characters before the first NUL are
empty, or are optional white space, an optional sign and one or more decimal digits. -/
def readsAsNumber (name : String) : Bool :=
  let s := (c_str name).dropWhile isspace
  let s1 := if s.head? = some '-' ∨ s.head? = some '+' then s.tail else s
  (c_str name).isEmpty || (!s1.isEmpty && s1.all Char.isDigit)

/-- A name that is one token for `tokenize`: not empty, no space and no parenthesis. -/
def isTokenName (name : String) : Bool :=
  !name.data.isEmpty && name.data.all (fun c => c != ' ' && c != '(' && c != ')')

mutual
/-- The token rendering of a tree of `Number`s, `Symbol`s and `List`s: a `Number` is its
decimal literal (a leading `-` when negative), a `Symbol` its name, a `List` its elements
between `(` and `)`. Closures and special forms have no source text. -/
def toTokens : Expr → TokenList
  | .Number number => [toString number]
  | .Symbol symbol => [symbol]
  | .List list => "(" :: (toTokensList list ++ [")"])
  | .Lambda _ => []
  | .SpecialForm _ => []
/-- The token renderings of the elements of a list, one after the other. -/
def toTokensList : List Expr → TokenList
  | [] => []
  | e :: es => toTokens e ++ toTokensList es
end

mutual
/-- The trees the round trip is about: `Number`s in the range of `long`, `Symbol`s whose name
is one token and is not read as a number by `atom`, and `List`s of such trees. -/
def isLiteral : Expr → Bool
  | .Number number => decide (LONG_MIN ≤ number) && decide (number ≤ LONG_MAX)
  | .Symbol symbol => isTokenName symbol && !readsAsNumber symbol
  | .List list => isLiteralList list
  | .Lambda _ => false
  | .SpecialForm _ => false
/-- Every element of the list is such a tree. -/
def isLiteralList : List Expr → Bool
  | [] => true
  | e :: es => isLiteral e && isLiteralList es
end

/-- The scopes of an environment chain, the local scope first, then the parents outward. -/
def Environment.scopes : Environment → List Locals
  | .root locals => [locals]
  | .child locals parent => locals :: parent.scopes

/-- The characters that end a token in `tokenize`: the two parentheses and the space. -/
def isDelimiter (c : Char) : Bool := c = '(' || c = ')' || c = ' '

/-- The token sequence as the specification words it: spaces are skipped, every parenthesis
is a token of its own, and every maximal run of characters that are neither a space nor a
parenthesis is one token, in source order (a run that ends the text included). The first
argument bounds the number of tokens and is never exhausted when it is the length of the
text. -/
def spec_tokenize : Nat → List Char → List String
  | 0, _ => []
  | _ + 1, [] => []
  | n + 1, c :: cs =>
    if c = ' ' then spec_tokenize n cs
    else if c = '(' ∨ c = ')' then String.singleton c :: spec_tokenize n cs
    else
      String.mk ((c :: cs).takeWhile (fun x => !isDelimiter x))
        :: spec_tokenize n ((c :: cs).dropWhile (fun x => !isDelimiter x))

/-- What `tokenize` pushes when it flushes `current_token`. -/
def flush_token (current_token : String) : List String :=
  if current_token.length > 0 then [current_token] else []

mutual
/-- The source text of a tree of `Number`s, `Symbol`s and `List`s, as its characters: a
`Number` is its decimal literal (a leading `-` when negative), a `Symbol` its name, a `List`
its elements between `(` and `)`, separated by one space. -/
def renderChars : Expr → List Char
  | .Number number => (toString number).data
  | .Symbol symbol => symbol.data
  | .List list => '(' :: (renderList list ++ [')'])
  | .Lambda _ => []
  | .SpecialForm _ => []
/-- The source texts of the elements of a list, separated by one space. -/
def renderList : List Expr → List Char
  | [] => []
  | e :: es => renderChars e ++ (if es.isEmpty then [] else ' ' :: renderList es)
end

/-- The source text of a tree, as a string. -/
def source_text (e : Expr) : String := String.mk (renderChars e)

/-- A token sequence that is exhausted before the form it begins is complete. The first
argument counts the lists that are open at this point of the sequence (0: no form has begun
yet). Every token is looked at once: `(` opens a list, `)` closes the innermost open list,
any other token is an atom; the answer is yes when the tokens run out while a list is open
or before any form has begun, and no as soon as one form is complete or a `)` comes where a
form must begin. -/
def ends_before_form_is_complete : Nat → TokenList → Bool
  | _, [] => true
  | 0, t :: ts => if t = "(" then ends_before_form_is_complete 1 ts else false
  | d + 1, t :: ts =>
    if t = "(" then ends_before_form_is_complete (d + 2) ts
    else if t = ")" then (if d = 0 then false else ends_before_form_is_complete d ts)
    else ends_before_form_is_complete (d + 1) ts

/-- The signed decimal value of a run of digits after an optional sign, saturated to the
range of `long`: what a decimal literal denotes when it fits, `LONG_MAX` or `LONG_MIN` when
it does not. -/
def literal_value (sign digits : List Char) : Int :=
  max LONG_MIN (min LONG_MAX
    (if sign = ['-'] then -(digitsValue digits : Int) else (digitsValue digits : Int)))

/-! # Theorems -/

set_option maxRecDepth 100000

/-! ## The recursion budget

A larger budget never changes an outcome that a smaller budget produced. -/

theorem eval_operands_mono {ev ev' : Evaluator} (h : Evaluator.le ev ev') :
    ∀ (l : List Expr) (env : Environment),
      eval_operands ev l env ≠ .nofuel → eval_operands ev' l env = eval_operands ev l env := by
  intro l
  induction l with
  | nil => intro env _; rfl
  | cons operand rest ih =>
    intro env hne
    have h1 := h (some operand) env
    simp only [eval_operands] at hne ⊢
    cases hev : ev (some operand) env with
    | ret p =>
      obtain ⟨value, env1⟩ := p
      rw [hev] at hne h1
      rw [h1 (by simp)]
      simp only at hne ⊢
      have h2 := ih env1
      cases hr : eval_operands ev rest env1 with
      | ret q => rw [hr] at h2; rw [h2 (by simp)]
      | fatal => rw [hr] at h2; rw [h2 (by simp)]
      | undefined => rw [hr] at h2; rw [h2 (by simp)]
      | nofuel => rw [hr] at hne; simp at hne
    | fatal => rw [hev] at h1; rw [h1 (by simp)]
    | undefined => rw [hev] at h1; rw [h1 (by simp)]
    | nofuel => rw [hev] at hne; simp at hne

theorem special_if_mono {ev ev' : Evaluator} (h : Evaluator.le ev ev')
    (env : Environment) (c t e : ExpressionPtr)
    (hne : special_if ev env c t e ≠ .nofuel) :
    special_if ev' env c t e = special_if ev env c t e := by
  have h1 := h c env
  simp only [special_if] at hne ⊢
  cases hev : ev c env with
  | ret p =>
    obtain ⟨value, env1⟩ := p
    rw [hev] at hne h1
    rw [h1 (by simp)]
    simp only at hne ⊢
    cases ht : truthiness value with
    | ret b =>
      rw [ht] at hne
      cases b with
      | true => simp only at hne ⊢; exact h _ _ hne
      | false => simp only at hne ⊢; exact h _ _ hne
    | fatal => rfl
    | undefined => rfl
    | nofuel => rfl
  | fatal => rw [hev] at h1; rw [h1 (by simp)]
  | undefined => rw [hev] at h1; rw [h1 (by simp)]
  | nofuel => rw [hev] at hne; simp at hne

theorem special_let_mono {ev ev' : Evaluator} (h : Evaluator.le ev ev')
    (env : Environment) (s v x : ExpressionPtr)
    (hne : special_let ev env s v x ≠ .nofuel) :
    special_let ev' env s v x = special_let ev env s v x := by
  unfold special_let at hne ⊢
  split
  · rename_i name
    have h1 := h v env
    simp only at hne
    cases hev : ev v env with
    | ret p =>
      obtain ⟨value, env1⟩ := p
      rw [hev] at hne h1
      rw [h1 (by simp)]
      simp only at hne ⊢
      have h2 := h x ((Environment.child [] env1).assign name value)
      cases hx : ev x ((Environment.child [] env1).assign name value) with
      | ret q => rw [hx] at h2; rw [h2 (by simp)]
      | fatal => rw [hx] at h2; rw [h2 (by simp)]
      | undefined => rw [hx] at h2; rw [h2 (by simp)]
      | nofuel => rw [hx] at hne; simp at hne
    | fatal => rw [hev] at h1; rw [h1 (by simp)]
    | undefined => rw [hev] at h1; rw [h1 (by simp)]
    | nofuel => rw [hev] at hne; simp at hne
  · rfl

theorem invoke_mono {ev ev' : Evaluator} (h : Evaluator.le ev ev')
    (lam : LambdaContainer Expr) (env : Environment) (args : ExpressionsList)
    (hne : lam.invoke ev env args ≠ .nofuel) :
    lam.invoke ev' env args = lam.invoke ev env args := by
  cases lam with
  | numeric arity function => rfl
  | special arity function =>
    simp only [LambdaContainer.invoke] at hne ⊢
    cases ha : assert_arity args arity with
    | ret u =>
      rw [ha] at hne
      simp only at hne ⊢
      split
      · rename_i c t e
        simp only at hne
        exact special_if_mono h env c t e hne
      · rename_i s v x
        simp only at hne
        exact special_let_mono h env s v x hne
      · rfl
      · rfl
    | fatal => rfl
    | undefined => rfl
    | nofuel => rfl
  | closure names body =>
    simp only [LambdaContainer.invoke] at hne ⊢
    cases ha : assert_arity args names.length with
    | ret u =>
      rw [ha] at hne
      simp only at hne ⊢
      have h2 := h body (bind_arguments (Environment.child [] env) names args)
      cases hx : ev body (bind_arguments (Environment.child [] env) names args) with
      | ret q => rw [hx] at h2; rw [h2 (by simp)]
      | fatal => rw [hx] at h2; rw [h2 (by simp)]
      | undefined => rw [hx] at h2; rw [h2 (by simp)]
      | nofuel => rw [hx] at hne; simp at hne
    | fatal => rfl
    | undefined => rfl
    | nofuel => rfl

theorem Lambda_call_mono {ev ev' : Evaluator} (h : Evaluator.le ev ev')
    (lam : LambdaContainer Expr) (env : Environment) (list : List Expr)
    (hne : Lambda.call ev lam env list ≠ .nofuel) :
    Lambda.call ev' lam env list = Lambda.call ev lam env list := by
  have h1 := eval_operands_mono h list.tail env
  simp only [Lambda.call] at hne ⊢
  cases hops : eval_operands ev list.tail env with
  | ret p =>
    obtain ⟨args, env1⟩ := p
    rw [hops] at hne h1
    rw [h1 (by simp)]
    simp only at hne ⊢
    exact invoke_mono h lam env1 args hne
  | fatal => rw [hops] at h1; rw [h1 (by simp)]
  | undefined => rw [hops] at h1; rw [h1 (by simp)]
  | nofuel => rw [hops] at hne; simp at hne

theorem SpecialForm_call_mono {ev ev' : Evaluator} (h : Evaluator.le ev ev')
    (lam : LambdaContainer Expr) (env : Environment) (list : List Expr)
    (hne : SpecialForm.call ev lam env list ≠ .nofuel) :
    SpecialForm.call ev' lam env list = SpecialForm.call ev lam env list :=
  invoke_mono h lam env _ hne

/-- A larger budget does not change a result that a smaller budget already produced. -/
theorem eval_succ_le : ∀ fuel : Nat, Evaluator.le (eval fuel) (eval (fuel + 1)) := by
  intro fuel
  induction fuel with
  | zero => intro e env hne; simp [eval] at hne
  | succ n ih =>
    intro e env hne
    match e with
    | none => rfl
    | some (.Number _) => rfl
    | some (.Lambda _) => rfl
    | some (.SpecialForm _) => rfl
    | some (.Symbol _) => rfl
    | some (.List []) => rfl
    | some (.List (first :: rest)) =>
      have h1 := ih (some first) env
      simp only [eval] at hne ⊢
      cases hev : eval n (some first) env with
      | ret p =>
        obtain ⟨head, env1⟩ := p
        rw [hev] at hne h1
        rw [h1 (by simp)]
        match head with
        | none => rfl
        | some (.Number _) => rfl
        | some (.Symbol _) => rfl
        | some (.List _) => rfl
        | some (.Lambda lam) => exact Lambda_call_mono ih lam env1 _ hne
        | some (.SpecialForm lam) => exact SpecialForm_call_mono ih lam env1 _ hne
      | fatal => rw [hev] at h1; rw [h1 (by simp)]
      | undefined => rw [hev] at h1; rw [h1 (by simp)]
      | nofuel => rw [hev] at hne; simp at hne

theorem eval_add_fuel (fuel k : Nat) (e : ExpressionPtr) (env : Environment)
    (hne : eval fuel e env ≠ .nofuel) : eval (fuel + k) e env = eval fuel e env := by
  induction k with
  | zero => rfl
  | succ k ih =>
    have h := eval_succ_le (fuel + k) e env (by rw [ih]; exact hne)
    rw [← Nat.add_assoc, h, ih]


theorem eval_string_add_fuel (fuel k : Nat) (code : String) (env : Environment)
    (hne : eval_string fuel code env ≠ .nofuel) :
    eval_string (fuel + k) code env = eval_string fuel code env := by
  unfold eval_string at hne ⊢
  cases hp : read_from_tokens (tokenize code) with
  | ret p =>
    rw [hp] at hne
    exact eval_add_fuel fuel k _ env hne
  | fatal => rfl
  | undefined => rfl
  | nofuel => rfl

theorem define_from_source_add_fuel (fuel k : Nat) (name code : String) (globals : Environment)
    (hne : define_from_source fuel name code globals ≠ .nofuel) :
    define_from_source (fuel + k) name code globals = define_from_source fuel name code globals := by
  unfold define_from_source at hne ⊢
  have h := eval_string_add_fuel fuel k code globals
  cases hp : eval_string fuel code globals with
  | ret p => rw [hp] at h; rw [h (by simp)]
  | fatal => rw [hp] at h; rw [h (by simp)]
  | undefined => rw [hp] at h; rw [h (by simp)]
  | nofuel => rw [hp] at hne; simp at hne

theorem bind_ne_nofuel {α β : Type} {a : Outcome α} {f : α → Outcome β}
    (h : a.bind f ≠ .nofuel) : a ≠ .nofuel := by
  intro ha
  rw [ha] at h
  exact h rfl

theorem bind_add_fuel {α β : Type} (a a' : Outcome α) (f f' : α → Outcome β)
    (ha : a ≠ .nofuel → a' = a) (hf : ∀ x, f x ≠ .nofuel → f' x = f x)
    (hne : a.bind f ≠ .nofuel) : a'.bind f' = a.bind f := by
  have ha1 := ha (bind_ne_nofuel hne)
  rw [ha1]
  cases a with
  | ret x => exact hf x hne
  | fatal => rfl
  | undefined => rfl
  | nofuel => rfl

theorem make_prelude_add_fuel (fuel k : Nat) (hne : make_prelude fuel ≠ .nofuel) :
    make_prelude (fuel + k) = make_prelude fuel := by
  unfold make_prelude at hne ⊢
  refine bind_add_fuel _ _ _ _ (define_from_source_add_fuel fuel k _ _ _) ?_ hne
  intro g1 h1
  refine bind_add_fuel _ _ _ _ (define_from_source_add_fuel fuel k _ _ _) ?_ h1
  intro g2 h2
  exact define_from_source_add_fuel fuel k _ _ _ h2

/-- Once `run_single_example` has an outcome within some budget, every larger budget gives
the same outcome. -/
theorem run_single_example_add_fuel (fuel k : Nat) (code : String)
    (hne : run_single_example fuel code ≠ .nofuel) :
    run_single_example (fuel + k) code = run_single_example fuel code := by
  unfold run_single_example at hne ⊢
  refine bind_add_fuel _ _ _ _ (make_prelude_add_fuel fuel k) ?_ hne
  intro g h1
  refine bind_add_fuel _ _ _ _ (eval_string_add_fuel fuel k code g) ?_ h1
  intro r _
  rfl

/-- An outcome of `run_single_example` obtained with budget `fuel` is the outcome with every
budget `fuel + k`. -/
theorem run_single_example_stable {fuel : Nat} {code : String} {r : Outcome ExpressionPtr}
    (h : run_single_example fuel code = r) (hr : r ≠ .nofuel) (k : Nat) :
    run_single_example (fuel + k) code = r := by
  rw [run_single_example_add_fuel fuel k code (by rw [h]; exact hr), h]

/-! ## Environment lookups that an assignment to another name leaves alone -/

theorem locals_find_store_ne (l : Locals) (s k : String) (v : ExpressionPtr) (h : s ≠ k) :
    Locals.find (Locals.store l s v) k = Locals.find l k := by
  induction l with
  | nil => rfl
  | cons p rest ih =>
    obtain ⟨key, w⟩ := p
    by_cases hk : key = s
    · subst hk
      simp [Locals.store, Locals.find, h]
    · by_cases hk2 : key = k
      · subst hk2
        simp [Locals.store, Locals.find, hk]
      · simp [Locals.store, Locals.find, hk, hk2, ih]

theorem environment_find_store_ne (env : Environment) (s k : String) (v : ExpressionPtr)
    (h : s ≠ k) : (env.store s v).find k = env.find k := by
  induction env with
  | root locals =>
    simp [Environment.store, Environment.find, Environment.find_inner, locals_find_store_ne _ _ _ _ h]
  | child locals parent ih =>
    simp only [Environment.find] at ih
    cases hs : Locals.find locals s with
    | some w =>
      simp [Environment.store, Environment.find, Environment.find_inner, hs,
        locals_find_store_ne _ _ _ _ h]
    | none =>
      simp [Environment.store, Environment.find, Environment.find_inner, hs, ih]

theorem find_withLocals_cons_ne (env : Environment) (s k : String)
    (v : ExpressionPtr) (h : s ≠ k) :
    (env.withLocals ((s, v) :: env.locals)).find k = env.find k := by
  cases env <;>
    simp [Environment.withLocals, Environment.locals, Environment.find, Environment.find_inner,
      Locals.find, h]

theorem find_withLocals_cons_self (env : Environment) (s : String)
    (v : ExpressionPtr) :
    (env.withLocals ((s, v) :: env.locals)).find s = some v := by
  cases env <;>
    simp [Environment.withLocals, Environment.locals, Environment.find, Environment.find_inner,
      Locals.find]

theorem find_assign_ne (env : Environment) (s k : String) (v : ExpressionPtr)
    (h : s ≠ k) : (env.assign s v).find k = env.find k := by
  unfold Environment.assign
  cases hs : env.find s with
  | some w => exact environment_find_store_ne env s k v h
  | none => exact find_withLocals_cons_ne env s k v h

theorem find_bind_arguments_of_not_mem (names : List String) :
    ∀ (env : Environment) (args : ExpressionsList) (k : String), k ∉ names →
      (bind_arguments env names args).find k = env.find k := by
  induction names with
  | nil => intro env args k _; cases args <;> rfl
  | cons name rest ih =>
    intro env args k hk
    cases args with
    | nil => rfl
    | cons a as =>
      have h1 : name ≠ k := fun h => hk (by simp [h])
      have h2 : k ∉ rest := fun h => hk (by simp [h])
      simp only [bind_arguments]
      rw [ih _ _ _ h2, find_assign_ne _ _ _ _ h1]

theorem find_child_nil (env : Environment) (k : String) :
    (Environment.child [] env).find k = env.find k := by
  simp [Environment.find, Environment.find_inner, Locals.find]

theorem eval_operands_length (ev : Evaluator) :
    ∀ (operands : List Expr) (env env1 : Environment) (args : ExpressionsList),
      eval_operands ev operands env = .ret (args, env1) → args.length = operands.length := by
  intro operands
  induction operands with
  | nil =>
    intro env env1 args h
    simp only [eval_operands, Outcome.ret.injEq, Prod.mk.injEq] at h
    rw [← h.1]
    rfl
  | cons operand rest ih =>
    intro env env1 args h
    simp only [eval_operands] at h
    cases hev : ev (some operand) env with
    | ret p =>
      obtain ⟨value, env2⟩ := p
      rw [hev] at h
      simp only at h
      cases hr : eval_operands ev rest env2 with
      | ret q =>
        obtain ⟨values, env3⟩ := q
        rw [hr] at h
        simp only [Outcome.ret.injEq, Prod.mk.injEq] at h
        rw [← h.1, List.length_cons, List.length_cons, ih _ _ _ hr]
      | fatal => rw [hr] at h; simp at h
      | undefined => rw [hr] at h; simp at h
      | nofuel => rw [hr] at h; simp at h
    | fatal => rw [hev] at h; simp at h
    | undefined => rw [hev] at h; simp at h
    | nofuel => rw [hev] at h; simp at h

/-! ## Decimal literals -/

theorem digitChar_isDigit (k : Nat) (h : k < 10) : (Nat.digitChar k).isDigit = true := by
  interval_cases k <;> decide

theorem digitChar_value (k : Nat) (h : k < 10) : (Nat.digitChar k).toNat - 48 = k := by
  interval_cases k <;> decide

theorem toDigitsCore_all_isDigit (fuel : Nat) :
    ∀ (n : Nat) (ds : List Char), (∀ c ∈ ds, c.isDigit = true) →
      ∀ c ∈ Nat.toDigitsCore 10 fuel n ds, c.isDigit = true := by
  induction fuel with
  | zero => intro n ds h; simpa [Nat.toDigitsCore] using h
  | succ f ih =>
    intro n ds h
    have hd : ∀ c ∈ Nat.digitChar (n % 10) :: ds, c.isDigit = true := by
      intro c hc
      rcases List.mem_cons.mp hc with rfl | hc
      · exact digitChar_isDigit _ (Nat.mod_lt _ (by decide))
      · exact h c hc
    simp only [Nat.toDigitsCore]
    split
    · exact hd
    · exact ih _ _ hd

theorem toDigitsCore_ne_nil (fuel : Nat) :
    ∀ (n : Nat) (ds : List Char), 0 < fuel → Nat.toDigitsCore 10 fuel n ds ≠ [] := by
  induction fuel with
  | zero => intro n ds h; exact absurd h (by decide)
  | succ f ih =>
    intro n ds _
    simp only [Nat.toDigitsCore]
    split
    · simp
    · cases f with
      | zero => simp [Nat.toDigitsCore]
      | succ g => exact ih _ _ (Nat.succ_pos g)

theorem toDigitsCore_value (fuel : Nat) :
    ∀ (n : Nat) (ds : List Char), n < fuel →
      (Nat.toDigitsCore 10 fuel n ds).foldl (fun acc d => 10 * acc + (d.toNat - 48)) 0
        = ds.foldl (fun acc d => 10 * acc + (d.toNat - 48)) n := by
  induction fuel with
  | zero => intro n ds h; exact absurd h (Nat.not_lt_zero n)
  | succ f ih =>
    intro n ds h
    simp only [Nat.toDigitsCore]
    split
    · rename_i h0
      have hn : n % 10 = n := by omega
      have hv : (Nat.digitChar n).toNat - 48 = n := digitChar_value n (by omega)
      simp [List.foldl, hn, hv]
    · rename_i h0
      have hlt : n / 10 < f := by omega
      rw [ih _ _ hlt]
      simp only [List.foldl, digitChar_value _ (Nat.mod_lt n (by decide : 0 < 10))]
      congr 1
      omega

theorem digitsValue_toDigits (n : Nat) : digitsValue (Nat.toDigits 10 n) = n := by
  simp [digitsValue, Nat.toDigits, toDigitsCore_value (n + 1) n [] (Nat.lt_succ_self n)]

theorem toDigits_all_isDigit (n : Nat) : ∀ c ∈ Nat.toDigits 10 n, c.isDigit = true :=
  toDigitsCore_all_isDigit (n + 1) n [] (by simp)

theorem toDigits_ne_nil (n : Nat) : Nat.toDigits 10 n ≠ [] :=
  toDigitsCore_ne_nil (n + 1) n [] (Nat.succ_pos n)

/-! ## The classification of tokens by `atom` -/

theorem isDigit_not_special (c : Char) (h : c.isDigit = true) :
    isspace c = false ∧ c ≠ '-' ∧ c ≠ '+' ∧ c ≠ Char.ofNat 0 ∧ c ≠ '(' ∧ c ≠ ')' := by
  refine ⟨?_, ?_, ?_, ?_, ?_, ?_⟩
  · cases hs : isspace c with
    | false => rfl
    | true =>
      exfalso
      simp only [isspace, Bool.or_eq_true, decide_eq_true_eq] at hs
      rcases hs with ((((hs | hs) | hs) | hs) | hs) | hs <;>
        (subst hs; exact absurd h (by decide))
  all_goals
    intro hc
    subst hc
    exact absurd h (by decide)

theorem takeWhile_of_all {α : Type} (p : α → Bool) (l : List α) (h : ∀ x ∈ l, p x = true) :
    l.takeWhile p = l ∧ l.dropWhile p = [] := by
  induction l with
  | nil => exact ⟨rfl, rfl⟩
  | cons a rest ih =>
    have ha : p a = true := h a (by simp)
    have hr := ih (fun x hx => h x (by simp [hx]))
    simp [List.takeWhile, List.dropWhile, ha, hr.1, hr.2]

theorem strtol_digits (ds : List Char) (hne : ds ≠ []) (hd : ∀ c ∈ ds, c.isDigit = true) :
    strtol ds = (max LONG_MIN (min LONG_MAX (digitsValue ds : Int)), [])
      ∧ strtol ('-' :: ds) = (max LONG_MIN (min LONG_MAX (-(digitsValue ds : Int))), []) := by
  obtain ⟨d, rest, rfl⟩ := List.exists_cons_of_ne_nil hne
  have hdd := isDigit_not_special d (hd d (by simp))
  have htd := takeWhile_of_all Char.isDigit (d :: rest) hd
  have hsp : (d :: rest).dropWhile isspace = d :: rest := by
    simp [List.dropWhile, hdd.1]
  have hminus : ('-' :: d :: rest).dropWhile isspace = '-' :: d :: rest := by
    have : isspace '-' = false := by decide
    simp [List.dropWhile, this]
  constructor
  · simp only [strtol, hsp, List.head?_cons, Option.some.injEq, hdd.2.1, hdd.2.2.1, or_self,
      if_false, htd.1, htd.2]
    simp
  · simp only [strtol, hminus, List.head?_cons, true_or, if_true, List.tail_cons, htd.1, htd.2]
    simp

theorem c_str_of_no_nul (cs : List Char) (h : ∀ c ∈ cs, c ≠ Char.ofNat 0) :
    c_str (String.mk cs) = cs := by
  unfold c_str
  exact (takeWhile_of_all _ cs (fun c hc => by simpa using h c hc)).1

theorem toString_int_data (n : Int) :
    (0 ≤ n ∧ (toString n).data = Nat.toDigits 10 n.toNat)
      ∨ (n < 0 ∧ (toString n).data = '-' :: Nat.toDigits 10 (-n).toNat) := by
  cases n with
  | ofNat m => exact Or.inl ⟨Int.ofNat_nonneg m, rfl⟩
  | negSucc m => exact Or.inr ⟨Int.negSucc_lt_zero m, rfl⟩

/-- The decimal literal of a `long` is read back by `atom` as that number. -/
theorem atom_toString (n : Int) (h1 : LONG_MIN ≤ n) (h2 : n ≤ LONG_MAX) :
    atom (toString n) = .Number n := by
  rcases toString_int_data n with ⟨hn, hdata⟩ | ⟨hn, hdata⟩
  · have hs := (strtol_digits _ (toDigits_ne_nil n.toNat) (toDigits_all_isDigit n.toNat)).1
    have hc : c_str (toString n) = Nat.toDigits 10 n.toNat := by
      have := c_str_of_no_nul (toString n).data (by
        rw [hdata]
        intro c hc
        exact (isDigit_not_special c (toDigits_all_isDigit _ c hc)).2.2.2.1)
      rw [hdata] at this
      rw [← this, ← hdata]
    unfold atom
    rw [hc, hs, digitsValue_toDigits]
    simp only [if_true]
    congr 1
    rw [Int.toNat_of_nonneg hn]
    omega
  · have hs := (strtol_digits _ (toDigits_ne_nil (-n).toNat)
      (toDigits_all_isDigit (-n).toNat)).2
    have hc : c_str (toString n) = '-' :: Nat.toDigits 10 (-n).toNat := by
      have := c_str_of_no_nul (toString n).data (by
        rw [hdata]
        intro c hc
        rcases List.mem_cons.mp hc with rfl | hc
        · decide
        · exact (isDigit_not_special c (toDigits_all_isDigit _ c hc)).2.2.2.1)
      rw [hdata] at this
      rw [← this, ← hdata]
    unfold atom
    rw [hc, hs, digitsValue_toDigits]
    simp only [if_true]
    congr 1
    rw [Int.toNat_of_nonneg (by omega)]
    omega

theorem toString_int_ne_paren (n : Int) : toString n ≠ "(" ∧ toString n ≠ ")" := by
  have key : ∀ c : Char, c.isDigit = false → c ≠ '-' → (toString n).data ≠ [c] := by
    intro c hc hm hdata
    rcases toString_int_data n with ⟨_, h⟩ | ⟨_, h⟩
    · rw [hdata] at h
      have := toDigits_all_isDigit n.toNat c (by rw [← h]; simp)
      rw [hc] at this
      exact absurd this (by decide)
    · rw [hdata] at h
      simp only [List.cons.injEq] at h
      exact hm h.1
  constructor
  · intro h
    exact key '(' (by decide) (by decide) (by rw [h])
  · intro h
    exact key ')' (by decide) (by decide) (by rw [h])

theorem isTokenName_ne_paren (name : String) (h : isTokenName name = true) :
    name ≠ "(" ∧ name ≠ ")" := by
  simp only [isTokenName, Bool.and_eq_true, List.all_eq_true, bne_iff_ne, ne_eq] at h
  constructor
  · intro hn
    subst hn
    exact (h.2 '(' (by decide)).1.2 rfl
  · intro hn
    subst hn
    exact (h.2 ')' (by decide)).2 rfl

theorem strtol_rest_ne_nil (cs s1 : List Char)
    (hs1 : (if (cs.dropWhile isspace).head? = some '-' ∨ (cs.dropWhile isspace).head? = some '+'
        then (cs.dropWhile isspace).tail else cs.dropWhile isspace) = s1)
    (hcs : cs ≠ []) (h : s1 = [] ∨ s1.all Char.isDigit = false) : (strtol cs).2 ≠ [] := by
  unfold strtol
  simp only [hs1]
  by_cases hd : s1.takeWhile Char.isDigit = []
  · simp [hd, hcs]
  · simp only [hd, if_false]
    intro hnil
    rw [List.dropWhile_eq_nil_iff] at hnil
    rcases h with hl | hl
    · rw [hl] at hd
      exact hd rfl
    · rw [List.all_eq_false] at hl
      obtain ⟨x, hx, hxd⟩ := hl
      exact hxd (hnil x hx)

/-- A name that is not read as a number is classified as a `Symbol`. -/
theorem atom_of_not_readsAsNumber (name : String) (h : readsAsNumber name = false) :
    atom name = .Symbol name := by
  simp only [readsAsNumber, Bool.or_eq_false_iff, Bool.and_eq_false_iff,
    Bool.not_eq_false', List.isEmpty_eq_true] at h
  obtain ⟨hne, hlit⟩ := h
  have hne' : c_str name ≠ [] := by
    intro hc
    rw [hc] at hne
    exact absurd hne (by decide)
  have hrest := strtol_rest_ne_nil (c_str name) _ rfl hne' hlit
  unfold atom
  simp [hrest]

/-! ## Parsing the token rendering of a tree -/

theorem toTokens_head (e : Expr) (h : isLiteral e = true) :
    ∃ t ts, toTokens e = t :: ts ∧ t ≠ ")" := by
  cases e with
  | Number n => exact ⟨toString n, [], by simp [toTokens], (toString_int_ne_paren n).2⟩
  | Symbol s =>
    simp only [isLiteral, Bool.and_eq_true] at h
    exact ⟨s, [], by simp [toTokens], (isTokenName_ne_paren s h.1).2⟩
  | List l => exact ⟨"(", toTokensList l ++ [")"], by simp [toTokens], by decide⟩
  | Lambda _ => simp [isLiteral] at h
  | SpecialForm _ => simp [isLiteral] at h

theorem length_le_toTokensList (es : List Expr) (h : isLiteralList es = true) :
    es.length ≤ (toTokensList es).length := by
  induction es with
  | nil => simp
  | cons e rest ih =>
    simp only [isLiteralList, Bool.and_eq_true] at h
    obtain ⟨t, ts, ht, _⟩ := toTokens_head e h.1
    have := ih h.2
    simp only [toTokensList, ht, List.length_cons, List.length_append]
    omega

/-- Reading the rendering of a tree gives the tree back and leaves what follows; reading
the renderings of the elements of a list inside the loop appends them to the elements read
so far, at the cost of one unit of budget per element. -/
theorem read_rendering :
    ∀ e : Expr, isLiteral e = true → ∀ (rest : TokenList) (fuel : Nat),
      (toTokens e).length ≤ fuel →
      read_from_tokens_fuel fuel (toTokens e ++ rest) = .ret (e, rest) := by
  intro e
  refine toTokens.induct
    (fun e => isLiteral e = true → ∀ (rest : TokenList) (fuel : Nat),
      (toTokens e).length ≤ fuel →
      read_from_tokens_fuel fuel (toTokens e ++ rest) = .ret (e, rest))
    (fun es => isLiteralList es = true → ∀ (tail : TokenList) (acc : List Expr) (fuel : Nat),
      (toTokensList es).length + 1 ≤ fuel →
      read_from_tokens_loop fuel (toTokensList es ++ tail) acc
        = read_from_tokens_loop (fuel - es.length) tail (acc ++ es))
    ?_ ?_ ?_ ?_ ?_ ?_ ?_ e
  · -- Number
    intro n h rest fuel hfuel
    simp only [isLiteral, Bool.and_eq_true, decide_eq_true_eq] at h
    obtain ⟨f, rfl⟩ : ∃ f, fuel = f + 1 := ⟨fuel - 1, by simp [toTokens] at hfuel; omega⟩
    have hp := toString_int_ne_paren n
    simp [toTokens, read_from_tokens_fuel, hp.1, hp.2, atom_toString n h.1 h.2]
  · -- Symbol
    intro s h rest fuel hfuel
    simp only [isLiteral, Bool.and_eq_true, Bool.not_eq_true'] at h
    obtain ⟨f, rfl⟩ : ∃ f, fuel = f + 1 := ⟨fuel - 1, by simp [toTokens] at hfuel; omega⟩
    have hp := isTokenName_ne_paren s h.1
    simp [toTokens, read_from_tokens_fuel, hp.1, hp.2, atom_of_not_readsAsNumber s h.2]
  · -- List
    intro l ih h rest fuel hfuel
    simp only [isLiteral] at h
    simp only [toTokens, List.length_cons, List.length_append, List.length_nil] at hfuel
    obtain ⟨f, rfl⟩ : ∃ f, fuel = f + 1 := ⟨fuel - 1, by omega⟩
    have hlen := length_le_toTokensList l h
    have hq := ih h (")" :: rest) [] f (by omega)
    obtain ⟨g, hg⟩ : ∃ g, f - l.length = g + 1 := ⟨f - l.length - 1, by omega⟩
    simp only [toTokens, List.cons_append, List.append_assoc, List.nil_append,
      read_from_tokens_fuel, if_true]
    simp only [List.cons_append, List.nil_append] at hq
    rw [hq, hg]
    simp [read_from_tokens_loop]
  · intro lam h; simp [isLiteral] at h
  · intro lam h; simp [isLiteral] at h
  · -- no element
    intro _ tail acc fuel _
    simp [toTokensList]
  · -- one more element
    intro e es ihe ihes h tail acc fuel hfuel
    simp only [isLiteralList, Bool.and_eq_true] at h
    obtain ⟨t, ts, ht, htne⟩ := toTokens_head e h.1
    simp only [toTokensList, List.length_append] at hfuel
    have hte : 1 ≤ (toTokens e).length := by rw [ht]; simp
    obtain ⟨f, rfl⟩ : ∃ f, fuel = f + 1 := ⟨fuel - 1, by omega⟩
    have hp := ihe h.1 (toTokensList es ++ tail) f (by omega)
    have hq := ihes h.2 tail (acc ++ [e]) f (by omega)
    rw [ht] at hp
    simp only [List.cons_append] at hp
    simp only [toTokensList, ht, List.cons_append, List.append_assoc, read_from_tokens_loop,
      htne, if_false, hp, hq, List.length_cons, Nat.add_sub_add_right, List.nil_append]

theorem read_rendering_list (es : List Expr) (h : isLiteralList es = true) :
    ∀ (tail : TokenList) (acc : List Expr) (fuel : Nat),
      (toTokensList es).length + 1 ≤ fuel →
      read_from_tokens_loop fuel (toTokensList es ++ tail) acc
        = read_from_tokens_loop (fuel - es.length) tail (acc ++ es) := by
  induction es with
  | nil =>
    intro tail acc fuel _
    simp [toTokensList]
  | cons e es ih =>
    intro tail acc fuel hfuel
    simp only [isLiteralList, Bool.and_eq_true] at h
    obtain ⟨t, ts, ht, htne⟩ := toTokens_head e h.1
    simp only [toTokensList, List.length_append] at hfuel
    have hte : 1 ≤ (toTokens e).length := by rw [ht]; simp
    obtain ⟨f, rfl⟩ : ∃ f, fuel = f + 1 := ⟨fuel - 1, by omega⟩
    have hp := read_rendering e h.1 (toTokensList es ++ tail) f (by omega)
    have hq := ih h.2 tail (acc ++ [e]) f (by omega)
    rw [ht] at hp
    simp only [List.cons_append] at hp
    simp only [toTokensList, ht, List.cons_append, List.append_assoc, read_from_tokens_loop,
      htne, if_false, hp, hq, List.length_cons, Nat.add_sub_add_right, List.nil_append]

/-! # The claims -/

/-- C1 (defect of the code): the inner `let` overwrites the outer binding of the same name.
For all integers `a` and `b`, evaluating `(let x a (+ (let x b x) x))` in the prelude
environment returns `Number(b + b)` (wrapped to 64 bits), not `Number(b + a)`; the text
`(let x 3 (+ (let x 7 x) x))` evaluated in a fresh prelude returns `Number(14)`, not
`Number(10)`. The assignment `child_env[name] = ...` of the inner `let` finds the `x` of the
outer scope through `Environment::operator[]` and writes to it, so the outer `x` reads `b`
after the inner `let` has returned. This holds for every recursion budget from 8 on. -/
theorem let_inner_binding_overwrites_outer (a b : Int) (k : Nat) :
    eval (8 + k) (some (.List [.Symbol "let", .Symbol "x", .Number a,
        .List [.Symbol "+", .List [.Symbol "let", .Symbol "x", .Number b, .Symbol "x"],
          .Symbol "x"]])) prelude_globals
        = .ret (some (.Number (wrapLong (b + b))), prelude_globals)
      ∧ run_single_example (8 + k) "(let x 3 (+ (let x 7 x) x))"
        = .ret (some (.Number 14)) := by
  have h : eval 8 (some (.List [.Symbol "let", .Symbol "x", .Number a,
        .List [.Symbol "+", .List [.Symbol "let", .Symbol "x", .Number b, .Symbol "x"],
          .Symbol "x"]])) prelude_globals
      = .ret (some (.Number (wrapLong (b + b))), prelude_globals) := by rfl
  refine ⟨?_, run_single_example_stable (by rfl) (by simp) k⟩
  rw [eval_add_fuel 8 k _ _ (by rw [h]; simp), h]

/-- C2 (the claim fails): the closure created under `y = 1` and called under `y = 100`
returns `Number(101)`, not `Number(2)`: its free variable `y` is read from the caller. -/
theorem closure_free_variable_reads_caller :
    run_single_example 10 "(let f (let y 1 (lambda (x) (+ x y))) (let y 100 (f 1)))"
        = .ret (some (.Number 101))
      ∧ run_single_example 10 "(let f (let y 1 (lambda (x) (+ x y))) (let y 100 (f 1)))"
        ≠ .ret (some (.Number 2)) := by
  have h : run_single_example 10 "(let f (let y 1 (lambda (x) (+ x y))) (let y 100 (f 1)))"
      = .ret (some (.Number 101)) := by rfl
  refine ⟨h, ?_⟩
  rw [h]
  simp

/-- C2 (as amended): closures are dynamically scoped. When the head of a list evaluates to a
closure and the operands evaluate to as many values as it has parameters, the result is the
body evaluated in a new child scope of the environment of the caller (as the evaluation of
head and operands left it), with the parameters assigned there through
`Environment::operator[]`; the closure holds no environment of its own. So a free variable
`y` of the body that the caller binds to `v` evaluates to `v`. The example with `y = 1` at
creation and `y = 100` at the call returns `Number(101)`, and
`(let myfun (lambda (x y) (+ x y)) (myfun 4 5))` returns `Number(9)`. -/
theorem closure_body_runs_in_child_of_caller (fuel : Nat) (head : Expr) (operands : List Expr)
    (names : List String) (body : ExpressionPtr) (env env1 env2 : Environment)
    (args : ExpressionsList)
    (hhead : eval fuel (some head) env = .ret (some (.Lambda (.closure names body)), env1))
    (hargs : eval_operands (eval fuel) operands env1 = .ret (args, env2))
    (harity : args.length = names.length) :
    eval (fuel + 1) (some (.List (head :: operands))) env
        = (eval fuel body (bind_arguments (.child [] env2) names args)).bind
            (fun r => .ret (r.1, r.2.parent))
      ∧ (∀ (y : String) (v : ExpressionPtr), body = some (.Symbol y) → y ∉ names →
          env2.find y = some v →
          eval (fuel + 1) (some (.List (head :: operands))) env
            = .ret (v, (bind_arguments (.child [] env2) names args).parent))
      ∧ (∀ k, run_single_example (10 + k)
              "(let f (let y 1 (lambda (x) (+ x y))) (let y 100 (f 1)))"
            = .ret (some (.Number 101)))
      ∧ (∀ k, run_single_example (10 + k) "(let myfun (lambda (x y) (+ x y)) (myfun 4 5))"
            = .ret (some (.Number 9))) := by
  have hcall : eval (fuel + 1) (some (.List (head :: operands))) env
      = (eval fuel body (bind_arguments (.child [] env2) names args)).bind
          (fun r => .ret (r.1, r.2.parent)) := by
    simp only [eval, hhead, Lambda.call, List.tail_cons, hargs, LambdaContainer.invoke,
      assert_arity, harity, ne_eq, not_true_eq_false, if_false]
    cases eval fuel body (bind_arguments (.child [] env2) names args) <;> rfl
  refine ⟨hcall, ?_, ?_, ?_⟩
  · intro y v hbody hy hfind
    rw [hcall, hbody]
    cases fuel with
    | zero => simp [eval] at hhead
    | succ n =>
      have hf : (bind_arguments (.child [] env2) names args).find y = some v := by
        rw [find_bind_arguments_of_not_mem names _ _ _ hy, find_child_nil, hfind]
      simp [eval, Environment.subscript, hf, Outcome.bind]
  · intro k
    exact run_single_example_stable (by rfl) (by simp) k
  · intro k
    exact run_single_example_stable (by rfl) (by simp) k

/-- Witness for C2: the call `(f 1)` where the caller binds `y` to 100 and `f` to the closure
`(lambda (x) (+ x y))`. -/
theorem closure_body_runs_in_child_of_caller_witness :
    eval 5 (some (.List [.Symbol "f", .Number 1]))
        (.child [("y", some (.Number 100))]
          (.child [("f", some (.Lambda (.closure ["x"]
            (some (.List [.Symbol "+", .Symbol "x", .Symbol "y"])))))] prelude_globals))
      = .ret (some (.Number 101),
          .child [("y", some (.Number 100))]
            (.child [("f", some (.Lambda (.closure ["x"]
              (some (.List [.Symbol "+", .Symbol "x", .Symbol "y"])))))] prelude_globals)) :=
  (closure_body_runs_in_child_of_caller 4 (.Symbol "f") [.Number 1] ["x"]
    (some (.List [.Symbol "+", .Symbol "x", .Symbol "y"]))
    (.child [("y", some (.Number 100))]
      (.child [("f", some (.Lambda (.closure ["x"]
        (some (.List [.Symbol "+", .Symbol "x", .Symbol "y"])))))] prelude_globals))
    _ _ [some (.Number 1)] (by rfl) (by rfl) (by rfl)).1.trans (by rfl)

/-- C3 (defect of the code): a closure call overwrites the caller's variable that has the
name of a parameter. For all integers `a` and `b`, evaluating
`(let x a (+ ((lambda (x) x) b) x))` in the prelude environment returns `Number(b + b)`
(wrapped to 64 bits), not `Number(b + a)`; in a fresh prelude the text
`(let x 3 (+ ((lambda (x) x) 7) x))` returns `Number(14)`, not `Number(10)`, and
`(let lhs 5 (+ (>= 1 2) lhs))` returns `Number(1)`, not `Number(5)`. The binding loop
`child_env[raw_arg_names[arg_idx]] = arg_values[arg_idx]` goes through
`Environment::operator[]`, which finds the caller's binding in the parent chain and writes
to it. This holds for every recursion budget from 8 on. -/
theorem closure_call_overwrites_caller_binding (a b : Int) (k : Nat) :
    eval (8 + k) (some (.List [.Symbol "let", .Symbol "x", .Number a,
        .List [.Symbol "+",
          .List [.List [.Symbol "lambda", .List [.Symbol "x"], .Symbol "x"], .Number b],
          .Symbol "x"]])) prelude_globals
        = .ret (some (.Number (wrapLong (b + b))), prelude_globals)
      ∧ run_single_example (8 + k) "(let x 3 (+ ((lambda (x) x) 7) x))"
        = .ret (some (.Number 14))
      ∧ run_single_example (8 + k) "(let lhs 5 (+ (>= 1 2) lhs))"
        = .ret (some (.Number 1)) := by
  have h : eval 8 (some (.List [.Symbol "let", .Symbol "x", .Number a,
        .List [.Symbol "+",
          .List [.List [.Symbol "lambda", .List [.Symbol "x"], .Symbol "x"], .Number b],
          .Symbol "x"]])) prelude_globals
      = .ret (some (.Number (wrapLong (b + b))), prelude_globals) := by rfl
  refine ⟨?_, run_single_example_stable (by rfl) (by simp) k,
    run_single_example_stable (by rfl) (by simp) k⟩
  rw [eval_add_fuel 8 k _ _ (by rw [h]; simp), h]

/-- C4: `if` evaluates its condition and then exactly one branch. In an environment where
`if` is the special form of the prelude, when the condition `c` evaluates to a value `v`
(leaving the environment `env1`) whose truthiness is `b`, the outcome of `(if c t e)`, value
and environment, is the outcome of evaluating `t` alone in `env1` when `b` is true, and of
evaluating `e` alone otherwise; the other branch has no part in it. In a fresh prelude
`(if (> 6 3) 20 (/ 5 0))` returns `Number(20)`, although `(/ 5 0)` on its own is undefined
behaviour. -/
theorem if_evaluates_exactly_one_branch (fuel : Nat) (c t e v : Expr) (env env1 : Environment)
    (b : Bool)
    (hif : env.find "if" = some (make_special_form 3 .if_))
    (hc : eval (fuel + 1) (some c) env = .ret (some v, env1))
    (hb : truthiness (some v) = .ret b) :
    eval (fuel + 2) (some (.List [.Symbol "if", c, t, e])) env
        = (if b then eval (fuel + 1) (some t) env1 else eval (fuel + 1) (some e) env1)
      ∧ (∀ k, run_single_example (6 + k) "(if (> 6 3) 20 (/ 5 0))" = .ret (some (.Number 20)))
      ∧ (∀ k, run_single_example (6 + k) "(/ 5 0)" = .undefined) := by
  refine ⟨?_, fun k => run_single_example_stable (by rfl) (by simp) k,
    fun k => run_single_example_stable (by rfl) (by simp) k⟩
  simp only [eval, Environment.subscript, hif, make_special_form, SpecialForm.call,
    List.tail_cons, List.map, LambdaContainer.invoke, assert_arity, List.length_cons,
    List.length_nil, special_if, hc, hb]
  cases b <;> simp

/-- Witness for C4: `(if (> 6 3) 20 (/ 5 0))` in the prelude environment. -/
theorem if_evaluates_exactly_one_branch_witness :
    prelude_globals.find "if" = some (make_special_form 3 .if_)
      ∧ eval 4 (some (.List [.Symbol "if", .List [.Symbol ">", .Number 6, .Number 3],
            .Number 20, .List [.Symbol "/", .Number 5, .Number 0]])) prelude_globals
          = .ret (some (.Number 20), prelude_globals)
      ∧ eval 3 (some (.List [.Symbol "/", .Number 5, .Number 0])) prelude_globals = .undefined :=
  ⟨by rfl,
   (if_evaluates_exactly_one_branch 2 (.List [.Symbol ">", .Number 6, .Number 3]) (.Number 20)
      (.List [.Symbol "/", .Number 5, .Number 0]) (.Number 1) prelude_globals prelude_globals
      true (by rfl) (by rfl) (by rfl)).1.trans (by rfl),
   by rfl⟩

/-- C5 (the claim fails): evaluating the unbound symbol `undefined_name` in a fresh prelude
returns normally, with the null pointer as value, and leaves the environment with a binding
of `undefined_name` (to null). -/
theorem unbound_symbol_returns_null_example :
    (make_prelude 3).bind (fun globals =>
        (eval 1 (some (.Symbol "undefined_name")) globals).bind (fun r =>
          .ret (globals.find "undefined_name", r.1, r.2.find "undefined_name")))
      = .ret (none, none, some none) := by
  rfl

/-- C5 (as amended): evaluating a symbol that no scope of the chain binds raises no error.
For every environment and every name that `find` does not find, `eval` returns the null
pointer and the environment with one new entry, `name` bound to null, in the local scope;
from then on `find` finds `name`, bound to null. -/
theorem eval_unbound_symbol_inserts_null (fuel : Nat) (env : Environment) (name : String)
    (h : env.find name = none) :
    eval (fuel + 1) (some (.Symbol name)) env
        = .ret (none, env.withLocals ((name, none) :: env.locals))
      ∧ (env.withLocals ((name, none) :: env.locals)).find name = some none := by
  refine ⟨?_, find_withLocals_cons_self env name none⟩
  simp [eval, Environment.subscript, h]

/-- Witness for C5: `undefined_name` in the empty root environment. -/
theorem eval_unbound_symbol_inserts_null_witness :
    (Environment.root []).find "undefined_name" = none
      ∧ eval 1 (some (.Symbol "undefined_name")) (.root [])
          = .ret (none, .root [("undefined_name", none)]) :=
  ⟨by rfl, (eval_unbound_symbol_inserts_null 0 (.root []) "undefined_name" (by rfl)).1⟩

/-- C6 (defect of the code): when the head of a non-empty list evaluates to anything but a
`Lambda` or a `SpecialForm` (a `Number`, a `Symbol`, a `List` or the null pointer), `eval`
does not call `exit(1)`: it casts the value to `Callable*` and calls through it, which is
undefined behaviour. `assert_callable` exists in the source and is not called. -/
theorem eval_non_callable_head_is_undefined (fuel : Nat) (head : Expr) (rest : List Expr)
    (env env1 : Environment) (v : ExpressionPtr)
    (hhead : eval fuel (some head) env = .ret (v, env1))
    (hv : ∀ lam, v ≠ some (.Lambda lam) ∧ v ≠ some (.SpecialForm lam)) :
    eval (fuel + 1) (some (.List (head :: rest))) env = .undefined
      ∧ eval (fuel + 1) (some (.List (head :: rest))) env ≠ .fatal := by
  have h : eval (fuel + 1) (some (.List (head :: rest))) env = .undefined := by
    simp only [eval, hhead]
    match v, hv with
    | none, _ => rfl
    | some (.Number _), _ => rfl
    | some (.Symbol _), _ => rfl
    | some (.List _), _ => rfl
    | some (.Lambda lam), hv => exact absurd rfl (hv lam).1
    | some (.SpecialForm lam), hv => exact absurd rfl (hv lam).2
  exact ⟨h, by rw [h]; simp⟩

/-- Witness for C6: the list `(1 2 3)` in the prelude environment. -/
theorem eval_non_callable_head_is_undefined_witness :
    eval 1 (some (.Number 1)) prelude_globals = .ret (some (.Number 1), prelude_globals)
      ∧ eval 2 (some (.List [.Number 1, .Number 2, .Number 3])) prelude_globals = .undefined :=
  ⟨by rfl,
   (eval_non_callable_head_is_undefined 1 (.Number 1) [.Number 2, .Number 3] prelude_globals
      prelude_globals (some (.Number 1)) (by rfl) (fun _ => ⟨by simp, by simp⟩)).1⟩

/-- C7: arity is enforced on every call. Let the head of a list evaluate to a callable whose
declared parameter count differs from the number of operands supplied. If the callable is a
`SpecialForm`, the call is `exit(1)`; if it is a `Lambda` (a closure or a numeric primitive)
and the operands evaluate successfully, the call is `exit(1)` as well, before the body or
the primitive runs. In a fresh prelude `((lambda (x y) (+ x y)) 1)` and
`((lambda (x y) (+ x y)) 1 2 3)` both end in `exit(1)`. -/
theorem arity_is_enforced (fuel : Nat) (head : Expr) (operands : List Expr)
    (lam : LambdaContainer Expr) (env env1 : Environment)
    (harity : operands.length ≠ declared_arity lam) :
    (eval fuel (some head) env = .ret (some (.SpecialForm lam), env1) →
        eval (fuel + 1) (some (.List (head :: operands))) env = .fatal)
      ∧ (∀ (args : ExpressionsList) (env2 : Environment),
          eval fuel (some head) env = .ret (some (.Lambda lam), env1) →
          eval_operands (eval fuel) operands env1 = .ret (args, env2) →
          eval (fuel + 1) (some (.List (head :: operands))) env = .fatal)
      ∧ (∀ k, run_single_example (6 + k) "((lambda (x y) (+ x y)) 1)" = .fatal)
      ∧ (∀ k, run_single_example (6 + k) "((lambda (x y) (+ x y)) 1 2 3)" = .fatal) := by
  have hinv : ∀ (ev : Evaluator) (e : Environment) (args : ExpressionsList),
      args.length = operands.length → lam.invoke ev e args = .fatal := by
    intro ev e args hlen
    cases lam with
    | numeric arity function =>
      simp only [declared_arity] at harity
      simp [LambdaContainer.invoke, assert_arity, hlen, harity]
    | special arity function =>
      simp only [declared_arity] at harity
      simp [LambdaContainer.invoke, assert_arity, hlen, harity]
    | closure names body =>
      simp only [declared_arity] at harity
      simp [LambdaContainer.invoke, assert_arity, hlen, harity]
  refine ⟨?_, ?_, fun k => run_single_example_stable (by rfl) (by simp) k,
    fun k => run_single_example_stable (by rfl) (by simp) k⟩
  · intro hhead
    simp only [eval, hhead, SpecialForm.call, List.tail_cons]
    exact hinv _ _ _ (by simp)
  · intro args env2 hhead hargs
    simp only [eval, hhead, Lambda.call, List.tail_cons, hargs]
    exact hinv _ _ _ (eval_operands_length _ _ _ _ _ hargs)

/-- Witness for C7: the primitive `+` applied to one operand, and the special form `if`
applied to two, in the prelude environment. -/
theorem arity_is_enforced_witness :
    eval 3 (some (.List [.Symbol "+", .Number 1])) prelude_globals = .fatal
      ∧ eval 3 (some (.List [.Symbol "if", .Number 1, .Number 2])) prelude_globals = .fatal :=
  ⟨(arity_is_enforced 2 (.Symbol "+") [.Number 1] (.numeric 2 .add) prelude_globals
      prelude_globals (by decide)).2.1 [some (.Number 1)] prelude_globals (by rfl) (by rfl),
   (arity_is_enforced 2 (.Symbol "if") [.Number 1, .Number 2] (.special 3 .if_) prelude_globals
      prelude_globals (by decide)).1 (by rfl)⟩

/-! ## Tokenizer -/

/-- C8 (defect of the code): a run of characters that ends at the end of the text is not
emitted. `tokenize` returns no token at all for `abc`, and loses the `2` of `(+ 1 2`: the
loop pushes `current_token` only when it meets a space or a parenthesis, and nothing pushes
it after the loop. -/
theorem tokenize_drops_trailing_token :
    tokenize "abc" = [] ∧ tokenize "(+ 1 2" = ["(", "+", "1"] := by
  decide

/-- C9 (the claim fails): the symbol whose name is a tab followed by `12` has a name that is
not empty, has no space and no parenthesis and is not an integer literal (a sign and
digits), yet its token is read back as `Number(12)`: `strtol` skips leading white space. -/
theorem symbol_with_leading_tab_reads_as_number :
    isTokenName (String.mk [Char.ofNat 9, '1', '2']) = true
      ∧ isIntegerLiteral (String.mk [Char.ofNat 9, '1', '2']) = false
      ∧ read_from_tokens (toTokens (.Symbol (String.mk [Char.ofNat 9, '1', '2'])) ++ [])
          = .ret (.Number 12, []) :=
  ⟨by decide, by decide, by rfl⟩

/-- C9 (as amended): parsing undoes rendering to tokens. For every tree built from `Number`s
in the range of `long`, `Symbol`s whose name is one token (not empty, no space, no
parenthesis) and is not read as a number by `atom` (its characters before the first NUL are
not empty and are not optional white space, an optional sign and one or more digits), and
`List`s of such trees, and for every token sequence `rest`, `read_from_tokens` applied to
the rendering of the tree followed by `rest` returns the tree and leaves `rest`. The tokens
of `(1 2 3)` parse to the list of the numbers 1, 2, 3. -/
theorem read_from_tokens_undoes_rendering (e : Expr) (rest : TokenList)
    (h : isLiteral e = true) :
    read_from_tokens (toTokens e ++ rest) = .ret (e, rest)
      ∧ read_from_tokens (tokenize "(1 2 3)")
          = .ret (.List [.Number 1, .Number 2, .Number 3], []) := by
  refine ⟨?_, by rfl⟩
  unfold read_from_tokens
  exact read_rendering e h rest _ (by simp only [List.length_append]; omega)

/-- Witness for C9: a nested list with a negative number, a symbol and an empty list. -/
theorem read_from_tokens_undoes_rendering_witness :
    isLiteral (.List [.Number (-2), .Symbol "abc", .List []]) = true
      ∧ toTokens (.List [.Number (-2), .Symbol "abc", .List []])
          = ["(", "-2", "abc", "(", ")", ")"]
      ∧ read_from_tokens (toTokens (.List [.Number (-2), .Symbol "abc", .List []]) ++ ["x", ")"])
          = .ret (.List [.Number (-2), .Symbol "abc", .List []], ["x", ")"]) :=
  ⟨by decide, by decide,
   (read_from_tokens_undoes_rendering (.List [.Number (-2), .Symbol "abc", .List []])
      ["x", ")"] (by decide)).1⟩

/-- C10 (the claim fails): for the empty token sequence and for the tokens `(`, `+`, `1` the
parser does not reach `exit(1)`; it calls `front()` on an empty deque. -/
theorem read_from_tokens_exhausted_example :
    read_from_tokens [] = .undefined ∧ read_from_tokens [] ≠ .fatal
      ∧ read_from_tokens ["(", "+", "1"] = .undefined
      ∧ read_from_tokens ["(", "+", "1"] ≠ .fatal := by
  have h1 : read_from_tokens [] = .undefined := by rfl
  have h2 : read_from_tokens ["(", "+", "1"] = .undefined := by rfl
  refine ⟨h1, ?_, h2, ?_⟩
  · rw [h1]; simp
  · rw [h2]; simp

/-- What `read_from_tokens` and its loop do on an arbitrary token sequence, with a budget
that covers the sequence. A call on a sequence that does not start with `)` either runs out
of tokens (undefined) or returns a form and a strictly shorter rest, and reading that form
does not change how many lists are open. The loop either runs out of tokens or returns at
the `)` that closes its list. -/
theorem read_from_tokens_outcomes (n : Nat) :
    (∀ ts : TokenList, 2 * ts.length + 1 ≤ n → ts.head? ≠ some ")" →
        (read_from_tokens_fuel n ts = .undefined
          ∧ ends_before_form_is_complete 0 ts = true
          ∧ ∀ d, ends_before_form_is_complete (d + 1) ts = true)
        ∨ (∃ e rest, read_from_tokens_fuel n ts = .ret (e, rest)
          ∧ rest.length < ts.length
          ∧ ends_before_form_is_complete 0 ts = false
          ∧ ∀ d, ends_before_form_is_complete (d + 1) ts
              = ends_before_form_is_complete (d + 1) rest))
      ∧ (∀ (ts : TokenList) (acc : List Expr), 2 * ts.length + 2 ≤ n →
        (read_from_tokens_loop n ts acc = .undefined
          ∧ ∀ d, ends_before_form_is_complete (d + 1) ts = true)
        ∨ (∃ e rest, read_from_tokens_loop n ts acc = .ret (e, rest)
          ∧ rest.length < ts.length
          ∧ ∀ d, ends_before_form_is_complete (d + 1) ts
              = (if d = 0 then false else ends_before_form_is_complete d rest))) := by
  induction n with
  | zero =>
    constructor
    · intro ts h; omega
    · intro ts acc h; omega
  | succ n ih =>
    obtain ⟨ihA, ihB⟩ := ih
    constructor
    · intro ts hlen hhead
      cases ts with
      | nil =>
        left
        exact ⟨rfl, rfl, fun _ => rfl⟩
      | cons t ts' =>
        simp only [List.length_cons] at hlen
        by_cases hopen : t = "("
        · subst hopen
          rcases ihB ts' [] (by omega) with ⟨hu, hd⟩ | ⟨e, rest, hr, hlt, hd⟩
          · left
            refine ⟨by simp [read_from_tokens_fuel, hu], ?_, ?_⟩
            · simpa [ends_before_form_is_complete] using hd 0
            · intro d
              simpa [ends_before_form_is_complete] using hd (d + 1)
          · right
            refine ⟨e, rest, by simp [read_from_tokens_fuel, hr], ?_, ?_, ?_⟩
            · simp only [List.length_cons]; omega
            · simpa [ends_before_form_is_complete] using hd 0
            · intro d
              simpa [ends_before_form_is_complete] using hd (d + 1)
        · have hclose : t ≠ ")" := by
            intro h
            subst h
            exact hhead rfl
          right
          refine ⟨atom t, ts', by simp [read_from_tokens_fuel, hopen, hclose], by simp, ?_, ?_⟩
          · simp [ends_before_form_is_complete, hopen]
          · intro d
            simp [ends_before_form_is_complete, hopen, hclose]
    · intro ts acc hlen
      cases ts with
      | nil =>
        left
        exact ⟨rfl, fun _ => rfl⟩
      | cons t ts' =>
        simp only [List.length_cons] at hlen
        by_cases hclose : t = ")"
        · subst hclose
          right
          refine ⟨.List acc, ts', by simp [read_from_tokens_loop], by simp, ?_⟩
          intro d
          have h1 : (")" : String) ≠ "(" := by decide
          simp [ends_before_form_is_complete, h1]
        · have hhead : (t :: ts').head? ≠ some ")" := by
            simpa using hclose
          rcases ihA (t :: ts') (by simp only [List.length_cons]; omega) hhead with
            ⟨hu, _, hd⟩ | ⟨e, rest1, hr, hlt, _, hd⟩
          · left
            exact ⟨by simp [read_from_tokens_loop, hclose, hu], hd⟩
          · simp only [List.length_cons] at hlt
            rcases ihB rest1 (acc ++ [e]) (by omega) with ⟨hu2, hd2⟩ | ⟨e2, rest2, hr2, hlt2, hd2⟩
            · left
              refine ⟨by simp [read_from_tokens_loop, hclose, hr, hu2], ?_⟩
              intro d
              rw [hd d, hd2 d]
            · right
              refine ⟨e2, rest2, by simp [read_from_tokens_loop, hclose, hr, hr2], ?_, ?_⟩
              · simp only [List.length_cons]; omega
              · intro d
                rw [hd d, hd2 d]

/-- C10 (as amended): `read_from_tokens` calls `exit(1)`, returning no expression, for every
token sequence whose first token is `)`, and only for those. For a token sequence that is
exhausted before the form it begins is complete (the empty sequence, and every sequence
that runs out while a list is open, such as `(`, `+`, `1`) there is no parse error: the
function calls `front()` on the empty deque, which is undefined behaviour, so nothing is
promised about what happens then. The undefined read happens for exactly those sequences;
for every other sequence the function returns an expression. -/
theorem read_from_tokens_without_complete_form (tokens rest : TokenList) :
    read_from_tokens (")" :: rest) = .fatal
      ∧ (read_from_tokens tokens = .fatal → tokens.head? = some ")")
      ∧ (ends_before_form_is_complete 0 tokens = true → read_from_tokens tokens = .undefined)
      ∧ (read_from_tokens tokens = .undefined → ends_before_form_is_complete 0 tokens = true)
      ∧ (tokens.head? ≠ some ")" → ends_before_form_is_complete 0 tokens = false →
          ∃ e rest1, read_from_tokens tokens = .ret (e, rest1)) := by
  have hfatal : ∀ r : TokenList, read_from_tokens (")" :: r) = .fatal := by
    intro r
    simp [read_from_tokens, read_from_tokens_fuel]
  have hA := (read_from_tokens_outcomes (2 * tokens.length + 1)).1 tokens (Nat.le_refl _)
  have hstart : tokens.head? = some ")" → ends_before_form_is_complete 0 tokens = false := by
    intro h
    cases tokens with
    | nil => simp at h
    | cons t ts =>
      simp only [List.head?_cons, Option.some.injEq] at h
      subst h
      have h1 : (")" : String) ≠ "(" := by decide
      simp [ends_before_form_is_complete, h1]
  refine ⟨hfatal rest, ?_, ?_, ?_, ?_⟩
  · intro h
    by_contra hhead
    rcases hA hhead with ⟨hu, _, _⟩ | ⟨e, r, hr, _, _, _⟩
    · rw [read_from_tokens, hu] at h
      simp at h
    · rw [read_from_tokens, hr] at h
      simp at h
  · intro h
    have hhead : tokens.head? ≠ some ")" := by
      intro hh
      rw [hstart hh] at h
      simp at h
    rcases hA hhead with ⟨hu, _, _⟩ | ⟨e, r, _, _, hf, _⟩
    · exact hu
    · rw [hf] at h
      simp at h
  · intro h
    by_cases hhead : tokens.head? = some ")"
    · cases tokens with
      | nil => simp at hhead
      | cons t ts =>
        simp only [List.head?_cons, Option.some.injEq] at hhead
        subst hhead
        rw [hfatal ts] at h
        simp at h
    · rcases hA hhead with ⟨_, he, _⟩ | ⟨e, r, hr, _, _, _⟩
      · exact he
      · rw [read_from_tokens, hr] at h
        simp at h
  · intro hhead hf
    rcases hA hhead with ⟨_, he, _⟩ | ⟨e, r, hr, _, _, _⟩
    · rw [he] at hf
      simp at hf
    · exact ⟨e, r, hr⟩

/-- Witness for C10: the tokens `)`, `x`, the unclosed tokens `(`, `+`, `1`, and the unclosed
tokens `(`, `007`. -/
theorem read_from_tokens_without_complete_form_witness :
    read_from_tokens [")", "x"] = .fatal
      ∧ read_from_tokens ["(", "+", "1"] = .undefined
      ∧ read_from_tokens ["(", "007"] = .undefined :=
  ⟨(read_from_tokens_without_complete_form ["(", "+", "1"] ["x"]).1,
   (read_from_tokens_without_complete_form ["(", "+", "1"] ["x"]).2.2.1 (by decide),
   (read_from_tokens_without_complete_form ["(", "007"] []).2.2.1 (by decide)⟩

/-! ## Truthiness, primitives and `lambda` -/

/-- C17: the truthiness rule. For every expression `e` (a non-null pointer) `truthiness`
returns, and what it returns is true if and only if `e` is a `Number` with a nonzero value,
or a `List` with at least one element, or a `Symbol`, a `Lambda` or a `SpecialForm`; it is
false exactly for `Number(0)` and for the empty `List`. -/
theorem truthiness_rule (e : Expr) :
    ∃ b : Bool, truthiness (some e) = .ret b
      ∧ (b = true ↔ ((∃ n, e = .Number n ∧ n ≠ 0) ∨ (∃ l, e = .List l ∧ l ≠ [])
            ∨ (∃ s, e = .Symbol s) ∨ (∃ lam, e = .Lambda lam) ∨ (∃ lam, e = .SpecialForm lam)))
      ∧ (b = false ↔ (e = .Number 0 ∨ e = .List [])) := by
  cases e with
  | Number n =>
    refine ⟨n != 0, rfl, ?_, ?_⟩
    · simp
    · simp
  | Symbol s => exact ⟨true, rfl, by simp, by simp⟩
  | List l =>
    refine ⟨decide (l.length > 0), rfl, ?_, ?_⟩
    · cases l <;> simp
    · cases l <;> simp
  | Lambda lam => exact ⟨true, rfl, by simp, by simp⟩
  | SpecialForm lam => exact ⟨true, rfl, by simp, by simp⟩
theorem numeric_operands_of_non_number :
    ∀ (args : ExpressionsList), (∃ a ∈ args, ∀ n, a ≠ some (.Number n)) →
      numeric_operands args = .undefined := by
  intro args
  induction args with
  | nil => intro h; obtain ⟨a, ha, _⟩ := h; simp at ha
  | cons x rest ih =>
    intro h
    match x with
    | some (.Number n) =>
      obtain ⟨a, ha, hn⟩ := h
      rcases List.mem_cons.mp ha with rfl | ha'
      · exact absurd rfl (hn n)
      · simp [numeric_operands, as_number, ih ⟨a, ha', hn⟩]
    | none => rfl
    | some (.Symbol _) => rfl
    | some (.List _) => rfl
    | some (.Lambda _) => rfl
    | some (.SpecialForm _) => rfl

/-- C18 (defect of the code): a numeric primitive does not reject an operand that is not a
`Number`. When the number of arguments is right and some argument is not a `Number` (a
`Lambda`, a `SpecialForm`, a `List`, a `Symbol` or the null pointer), the primitive does not
call `exit(1)`: it casts the pointer to `Number*` and reads `number` through it, which is
undefined behaviour. The call `assert_numeric(args[S]->type)...` is commented out in
`make_numeric_function`. In a fresh prelude `(+ 1 if)` and `(+ 1 (lambda (x) x))` are
undefined behaviour, for every recursion budget from 6 on. -/
theorem numeric_primitive_reads_non_number (ev : Evaluator) (arity : Nat)
    (function : NumericFn) (env : Environment) (args : ExpressionsList)
    (harity : args.length = arity) (hbad : ∃ a ∈ args, ∀ n, a ≠ some (.Number n)) :
    (LambdaContainer.numeric arity function).invoke ev env args = .undefined
      ∧ (LambdaContainer.numeric arity function).invoke ev env args ≠ .fatal
      ∧ (∀ k, run_single_example (6 + k) "(+ 1 if)" = .undefined)
      ∧ (∀ k, run_single_example (6 + k) "(+ 1 (lambda (x) x))" = .undefined) := by
  have h : (LambdaContainer.numeric arity function).invoke ev env args = .undefined := by
    simp [LambdaContainer.invoke, assert_arity, harity, numeric_operands_of_non_number args hbad]
  exact ⟨h, by rw [h]; simp, fun k => run_single_example_stable (by rfl) (by simp) k,
    fun k => run_single_example_stable (by rfl) (by simp) k⟩

/-- Witness for C18: the primitive `+` applied to `Number(1)` and the special form `if`. -/
theorem numeric_primitive_reads_non_number_witness :
    eval 3 (some (.List [.Symbol "+", .Number 1, .Symbol "if"])) prelude_globals = .undefined
      ∧ (LambdaContainer.numeric 2 .add).invoke (eval 2) prelude_globals
          [some (.Number 1), make_special_form 3 .if_] = .undefined :=
  ⟨by rfl,
   (numeric_primitive_reads_non_number (eval 2) 2 .add prelude_globals
      [some (.Number 1), make_special_form 3 .if_] (by rfl)
      ⟨make_special_form 3 .if_, by simp, fun n => by simp [make_special_form]⟩).1⟩

theorem raw_arg_names_of_symbols (names : List String) :
    raw_arg_names_of (names.map Expr.Symbol) = .ret names := by
  induction names with
  | nil => rfl
  | cons name rest ih =>
    simp [raw_arg_names_of, assert_symbolic, Expr.type, Outcome.bind, ih]

theorem raw_arg_names_of_non_symbol :
    ∀ (list : List Expr), (∃ p ∈ list, ∀ s, p ≠ .Symbol s) → raw_arg_names_of list = .fatal := by
  intro list
  induction list with
  | nil => intro h; obtain ⟨p, hp, _⟩ := h; simp at hp
  | cons x rest ih =>
    intro h
    match x with
    | .Symbol s =>
      obtain ⟨p, hp, hn⟩ := h
      rcases List.mem_cons.mp hp with rfl | hp'
      · exact absurd rfl (hn s)
      · simp [raw_arg_names_of, assert_symbolic, Expr.type, Outcome.bind, ih ⟨p, hp', hn⟩]
    | .Number _ => rfl
    | .List _ => rfl
    | .Lambda _ => rfl
    | .SpecialForm _ => rfl

/-- C19: `lambda` validates its parameter list before it creates a closure. In an
environment where `lambda` is the special form of the prelude, for every form
`(lambda P B)`: if `P` is not a `List`, or is a `List` with an element that is not a
`Symbol`, the evaluation is `exit(1)`; if `P` is a `List` of `Symbol`s, the evaluation
returns the `Lambda` holding the names and `B`, leaves the environment as it was, and does
not evaluate `B` (the result is the same whatever `B` is). In a fresh prelude
`(lambda (x 1) x)` and `(lambda x x)` end in `exit(1)`. -/
theorem lambda_validates_parameter_list (fuel : Nat) (env : Environment) (P B : Expr)
    (hlam : env.find "lambda" = some (make_special_form 2 .lambda_)) :
    ((∀ l, P ≠ .List l) →
        eval (fuel + 2) (some (.List [.Symbol "lambda", P, B])) env = .fatal)
      ∧ (∀ l, P = .List l → (∃ p ∈ l, ∀ s, p ≠ .Symbol s) →
        eval (fuel + 2) (some (.List [.Symbol "lambda", P, B])) env = .fatal)
      ∧ (∀ names : List String, P = .List (names.map Expr.Symbol) →
        eval (fuel + 2) (some (.List [.Symbol "lambda", P, B])) env
          = .ret (some (.Lambda (.closure names (some B))), env))
      ∧ (∀ k, run_single_example (5 + k) "(lambda (x 1) x)" = .fatal)
      ∧ (∀ k, run_single_example (5 + k) "(lambda x x)" = .fatal) := by
  have hcall : eval (fuel + 2) (some (.List [.Symbol "lambda", P, B])) env
      = special_lambda env (some P) (some B) := by
    simp [eval, Environment.subscript, hlam, make_special_form, SpecialForm.call,
      LambdaContainer.invoke, assert_arity]
  refine ⟨?_, ?_, ?_, fun k => run_single_example_stable (by rfl) (by simp) k,
    fun k => run_single_example_stable (by rfl) (by simp) k⟩
  · intro hP
    rw [hcall]
    cases P with
    | List l => exact absurd rfl (hP l)
    | Number _ => rfl
    | Symbol _ => rfl
    | Lambda _ => rfl
    | SpecialForm _ => rfl
  · intro l hP hbad
    rw [hcall, hP]
    simp [special_lambda, assert_list, Expr.type, Outcome.bind,
      raw_arg_names_of_non_symbol l hbad]
  · intro names hP
    rw [hcall, hP]
    simp [special_lambda, assert_list, Expr.type, Outcome.bind, raw_arg_names_of_symbols]

/-- Witness for C19: `(lambda (x y) (/ 1 0))` in the prelude environment returns a closure,
although its body divides by zero. -/
theorem lambda_validates_parameter_list_witness :
    prelude_globals.find "lambda" = some (make_special_form 2 .lambda_)
      ∧ eval 2 (some (.List [.Symbol "lambda", .List [.Symbol "x", .Symbol "y"],
            .List [.Symbol "/", .Number 1, .Number 0]])) prelude_globals
          = .ret (some (.Lambda (.closure ["x", "y"]
              (some (.List [.Symbol "/", .Number 1, .Number 0])))), prelude_globals)
      ∧ eval 2 (some (.List [.Symbol "lambda", .Symbol "x", .Symbol "x"])) prelude_globals
          = .fatal :=
  ⟨by rfl,
   (lambda_validates_parameter_list 0 prelude_globals (.List [.Symbol "x", .Symbol "y"])
      (.List [.Symbol "/", .Number 1, .Number 0]) (by rfl)).2.2.1 ["x", "y"] (by rfl),
   (lambda_validates_parameter_list 0 prelude_globals (.Symbol "x") (.Symbol "x")
      (by rfl)).1 (fun l => by simp)⟩
/-! ## The environment chain -/

theorem find_eq_findSome_scopes (env : Environment) (name : String) :
    env.find name = env.scopes.findSome? (fun l => Locals.find l name) := by
  induction env with
  | root locals =>
    simp only [Environment.find, Environment.find_inner, Environment.scopes,
      List.findSome?_cons, List.findSome?_nil]
    cases Locals.find locals name <;> rfl
  | child locals parent ih =>
    simp only [Environment.find] at ih
    simp only [Environment.find, Environment.find_inner, Environment.scopes,
      List.findSome?_cons]
    cases Locals.find locals name with
    | none => exact ih
    | some v => rfl

theorem find_of_scopes_split (env : Environment) (name : String) :
    ∀ (pre : List Locals) (scope : Locals) (post : List Locals) (v : ExpressionPtr),
      env.scopes = pre ++ scope :: post → (∀ l ∈ pre, Locals.find l name = none) →
      Locals.find scope name = some v → env.find name = some v := by
  intro pre scope post v hs hpre hv
  rw [find_eq_findSome_scopes, hs]
  clear hs
  induction pre with
  | nil => simp [hv]
  | cons l rest ih =>
    have hl : Locals.find l name = none := hpre l (by simp)
    simp only [List.cons_append, List.findSome?_cons, hl]
    exact ih (fun x hx => hpre x (by simp [hx]))

/-- C14: environment lookup returns the innermost binding. For every environment chain and
every name, `find` yields the binding of the name in the first scope that binds it, going
through the scopes from the local one outward: whenever the scopes before some scope do not
bind the name and that scope binds it to `v`, `find` yields `v`. It yields not-found exactly
when no scope of the chain binds the name. `find` writes nothing (here it is a function
that returns no environment), and reading `env[name]` for a name that `find` finds leaves
the environment as it was. -/
theorem find_returns_innermost_binding (env : Environment) (name : String) :
    env.find name = env.scopes.findSome? (fun l => Locals.find l name)
      ∧ (∀ (pre : List Locals) (scope : Locals) (post : List Locals) (v : ExpressionPtr),
          env.scopes = pre ++ scope :: post → (∀ l ∈ pre, Locals.find l name = none) →
          Locals.find scope name = some v → env.find name = some v)
      ∧ (env.find name = none ↔ ∀ l ∈ env.scopes, Locals.find l name = none)
      ∧ (∀ v, env.find name = some v → env.subscript name = (v, env)) := by
  refine ⟨find_eq_findSome_scopes env name, find_of_scopes_split env name, ?_, ?_⟩
  · rw [find_eq_findSome_scopes, List.findSome?_eq_none_iff]
  · intro v hv
    simp [Environment.subscript, hv]

/-- Witness for C14: `x` bound to 7 in the local scope and to 3 in the parent. -/
theorem find_returns_innermost_binding_witness :
    (Environment.child [("x", some (.Number 7))] (.root [("x", some (.Number 3))])).find "x"
      = some (some (.Number 7)) :=
  (find_returns_innermost_binding
    (Environment.child [("x", some (.Number 7))] (.root [("x", some (.Number 3))])) "x").2.1
    [] [("x", some (.Number 7))] [[("x", some (.Number 3))]] (some (.Number 7))
    (by rfl) (by simp) (by rfl)
theorem locals_find_store_self (l : Locals) (name : String) (v : ExpressionPtr)
    (h : Locals.find l name ≠ none) : Locals.find (Locals.store l name v) name = some v := by
  induction l with
  | nil => exact absurd rfl h
  | cons p rest ih =>
    obtain ⟨key, w⟩ := p
    by_cases hk : key = name
    · simp [Locals.store, Locals.find, hk]
    · simp only [Locals.find, hk, if_false] at h
      simp [Locals.store, Locals.find, hk, ih h]

theorem locals_store_keys (l : Locals) (name : String) (v : ExpressionPtr) :
    (Locals.store l name v).map Prod.fst = l.map Prod.fst := by
  induction l with
  | nil => rfl
  | cons p rest ih =>
    obtain ⟨key, w⟩ := p
    by_cases hk : key = name
    · simp [Locals.store, hk]
    · simp [Locals.store, hk, ih]

theorem store_scopes_split (name : String) (v : ExpressionPtr) :
    ∀ (env : Environment) (pre : List Locals) (scope : Locals) (post : List Locals),
      env.scopes = pre ++ scope :: post → (∀ l ∈ pre, Locals.find l name = none) →
      Locals.find scope name ≠ none →
      (env.store name v).scopes = pre ++ Locals.store scope name v :: post := by
  intro env
  induction env with
  | root locals =>
    intro pre scope post hs hpre hscope
    cases pre with
    | nil =>
      simp only [Environment.scopes, List.nil_append, List.cons.injEq] at hs
      obtain ⟨h1, h2⟩ := hs
      subst h1
      subst h2
      simp [Environment.store, Environment.scopes]
    | cons l rest =>
      simp only [Environment.scopes, List.cons_append, List.cons.injEq] at hs
      have := hs.2
      simp at this
  | child locals parent ih =>
    intro pre scope post hs hpre hscope
    cases pre with
    | nil =>
      simp only [Environment.scopes, List.nil_append, List.cons.injEq] at hs
      obtain ⟨h1, h2⟩ := hs
      subst h1
      cases hf : Locals.find locals name with
      | none => exact absurd hf hscope
      | some w => simp [Environment.store, Environment.scopes, hf, h2]
    | cons l rest =>
      simp only [Environment.scopes, List.cons_append, List.cons.injEq] at hs
      obtain ⟨h1, h2⟩ := hs
      subst h1
      have hl : Locals.find locals name = none := hpre locals (by simp)
      have := ih rest scope post h2 (fun x hx => hpre x (by simp [hx])) hscope
      simp [Environment.store, Environment.scopes, hl, this]

theorem scopes_withLocals (env : Environment) (l : Locals) :
    (env.withLocals l).scopes = l :: env.scopes.tail := by
  cases env <;> rfl

theorem scopes_find_store_ne (name k : String) (v : ExpressionPtr) (h : name ≠ k) :
    ∀ env : Environment,
      (env.store name v).scopes.map (fun l => Locals.find l k)
        = env.scopes.map (fun l => Locals.find l k) := by
  intro env
  induction env with
  | root locals =>
    simp [Environment.store, Environment.scopes, locals_find_store_ne _ _ _ _ h]
  | child locals parent ih =>
    cases hf : Locals.find locals name with
    | none => simp [Environment.store, Environment.scopes, hf, ih]
    | some w => simp [Environment.store, Environment.scopes, hf, locals_find_store_ne _ _ _ _ h]

theorem find_store_self (name : String) (v : ExpressionPtr) :
    ∀ env : Environment, env.find name ≠ none → (env.store name v).find name = some v := by
  intro env
  induction env with
  | root locals =>
    intro h
    simp only [Environment.find, Environment.find_inner] at h
    simp [Environment.store, Environment.find, Environment.find_inner,
      locals_find_store_self locals name v h]
  | child locals parent ih =>
    intro h
    simp only [Environment.find] at ih
    cases hf : Locals.find locals name with
    | some w =>
      simp [Environment.store, Environment.find, Environment.find_inner, hf,
        locals_find_store_self locals name v (by rw [hf]; simp)]
    | none =>
      simp only [Environment.find, Environment.find_inner, hf] at h
      simp [Environment.store, Environment.find, Environment.find_inner, hf, ih h]

theorem find_assign_self (env : Environment) (name : String) (v : ExpressionPtr) :
    (env.assign name v).find name = some v := by
  unfold Environment.assign
  cases hf : env.find name with
  | none => exact find_withLocals_cons_self env name v
  | some w => exact find_store_self name v env (by rw [hf]; simp)

/-- C13: assignment through the subscript follows the bind-or-assign rule. For every
environment chain, name and value `v`, after `env[name] = v`:

* lookup of the name yields `v`;
* if a scope of the chain binds the name (the scopes before it, from the local one outward,
  do not), that scope alone is written: it binds the name to `v`, it has the same names as
  before (no binding is created), and the scopes before and after it are what they were;
* if `find` does not find the name, the local scope has the new binding in front of its old
  entries and the parents are what they were;
* for every other name, every scope of the chain binds it as before. -/
theorem assign_binds_or_assigns (env : Environment) (name : String) (v : ExpressionPtr) :
    (env.assign name v).find name = some v
      ∧ (∀ (pre : List Locals) (scope : Locals) (post : List Locals),
          env.scopes = pre ++ scope :: post → (∀ l ∈ pre, Locals.find l name = none) →
          Locals.find scope name ≠ none →
          (env.assign name v).scopes = pre ++ Locals.store scope name v :: post
            ∧ Locals.find (Locals.store scope name v) name = some v
            ∧ (Locals.store scope name v).map Prod.fst = scope.map Prod.fst)
      ∧ (env.find name = none →
          (env.assign name v).scopes = ((name, v) :: env.locals) :: env.scopes.tail)
      ∧ (∀ k, k ≠ name →
          (env.assign name v).scopes.map (fun l => Locals.find l k)
            = env.scopes.map (fun l => Locals.find l k)) := by
  refine ⟨find_assign_self env name v, ?_, ?_, ?_⟩
  · intro pre scope post hs hpre hscope
    obtain ⟨w, hw⟩ := Option.ne_none_iff_exists'.mp hscope
    have hfind := find_of_scopes_split env name pre scope post w hs hpre hw
    refine ⟨?_, locals_find_store_self scope name v hscope, locals_store_keys scope name v⟩
    simp only [Environment.assign, hfind]
    exact store_scopes_split name v env pre scope post hs hpre hscope
  · intro hnone
    simp only [Environment.assign, hnone]
    exact scopes_withLocals env _
  · intro k hk
    unfold Environment.assign
    cases hf : env.find name with
    | some w => exact scopes_find_store_ne name k v (Ne.symm hk) env
    | none =>
      simp only [scopes_withLocals]
      cases env <;>
        simp [Environment.scopes, Environment.locals, Locals.find, Ne.symm hk]

/-- Witness for C13: `x` is bound to 3 in the parent only; `child["x"] = 7` writes to the
parent and creates nothing in the local scope. -/
theorem assign_binds_or_assigns_witness :
    ((Environment.child [("y", none)] (.root [("x", some (.Number 3))])).assign "x"
        (some (.Number 7))).scopes
      = [[("y", none)], [("x", some (.Number 7))]] :=
  ((assign_binds_or_assigns (Environment.child [("y", none)] (.root [("x", some (.Number 3))]))
      "x" (some (.Number 7))).2.1 [[("y", none)]] [("x", some (.Number 3))] []
      (by rfl) (by simp [Locals.find]) (by simp [Locals.find])).1
/-! ## Classification of tokens -/

theorem strtol_plus_digits (ds : List Char) (hne : ds ≠ []) (hd : ∀ c ∈ ds, c.isDigit = true) :
    strtol ('+' :: ds) = (max LONG_MIN (min LONG_MAX (digitsValue ds : Int)), []) := by
  have htd := takeWhile_of_all Char.isDigit ds hd
  have hplus : ('+' :: ds).dropWhile isspace = '+' :: ds := by
    have : isspace '+' = false := by decide
    simp [List.dropWhile, this]
  have h1 : ¬ (some '+' = some '-') := by decide
  simp only [strtol, hplus, List.head?_cons, or_true, if_true, List.tail_cons, htd.1, htd.2,
    hne, if_false, h1, decide_False]

theorem strtol_value_range (cs : List Char) :
    LONG_MIN ≤ (strtol cs).1 ∧ (strtol cs).1 ≤ LONG_MAX := by
  have h0 : LONG_MIN ≤ (0 : Int) ∧ (0 : Int) ≤ LONG_MAX := by decide
  have hm : ∀ x : Int, LONG_MIN ≤ max LONG_MIN (min LONG_MAX x)
      ∧ max LONG_MIN (min LONG_MAX x) ≤ LONG_MAX :=
    fun x => ⟨le_max_left _ _, max_le (by decide) (min_le_left _ _)⟩
  unfold strtol
  simp only
  split_ifs <;> first | exact h0 | exact hm _

/-- A name that is read as a number is classified as a `Number`, with the value `strtol`
returns. -/
theorem atom_of_readsAsNumber (name : String) (h : readsAsNumber name = true) :
    atom name = .Number (strtol (c_str name)).1 := by
  have hrest : (strtol (c_str name)).2 = [] := by
    simp only [readsAsNumber, Bool.or_eq_true, Bool.and_eq_true, List.isEmpty_eq_true,
      Bool.not_eq_true', List.all_eq_true] at h
    rcases h with h0 | ⟨hne, hall⟩
    · rw [h0]
      rfl
    · have htd := takeWhile_of_all Char.isDigit _ hall
      have hne' : ∀ l : List Char, l.isEmpty = false → l ≠ [] := by
        intro l hl hnil
        rw [hnil] at hl
        exact absurd hl (by decide)
      unfold strtol
      simp only [htd.1, htd.2, hne' _ hne, if_false]
  unfold atom
  simp [hrest]
/-- C15 (the claim fails): the empty token, and the tokens made of a tab or a newline
followed by `12`, are not integer literals (an optional sign and one or more digits), yet
`atom` returns `Number(0)` for the first and `Number(12)` for the others, not a `Symbol`. -/
theorem atom_reads_empty_and_padded_tokens_as_numbers :
    isIntegerLiteral "" = false ∧ atom "" = .Number 0
      ∧ isIntegerLiteral (String.mk [Char.ofNat 9, '1', '2']) = false
      ∧ atom (String.mk [Char.ofNat 9, '1', '2']) = .Number 12
      ∧ isIntegerLiteral (String.mk [Char.ofNat 10, '1', '2']) = false
      ∧ atom (String.mk [Char.ofNat 10, '1', '2']) = .Number 12 :=
  ⟨by decide, by rfl, by decide, by rfl, by decide, by rfl⟩

/-! ## The tokenizer against the specification -/

theorem tokenize_step_delimiter (toks : TokenList) (cur : String) (d : Char)
    (hd : isDelimiter d = true) :
    tokenize_step (toks, cur) d
      = (toks ++ flush_token cur ++ (if d = ' ' then [] else [String.singleton d]), "") := by
  have hd' : d = '(' ∨ d = ')' ∨ d = ' ' := by
    simpa [isDelimiter, or_assoc] using hd
  have hcur : ¬ cur.length > 0 → cur = "" := by
    intro hl
    cases cur with
    | mk l =>
      have : l = [] := by
        cases l with
        | nil => rfl
        | cons a l => exact absurd (by simp [String.length]) hl
      rw [this]
  unfold tokenize_step flush_token
  simp only [hd', if_true]
  by_cases hl : cur.length > 0 <;> by_cases hs : d = ' ' <;> simp [hl, hs, hcur]

theorem tokenize_step_other (toks : TokenList) (cur : String) (c : Char)
    (hc : isDelimiter c = false) :
    tokenize_step (toks, cur) c = (toks, String.mk (cur.data ++ [c])) := by
  have hc' : ¬ (c = '(' ∨ c = ')' ∨ c = ' ') := by
    intro h
    rcases h with rfl | rfl | rfl <;> exact absurd hc (by decide)
  unfold tokenize_step
  simp only [hc', if_false]
  rfl

theorem empty_string_data : ("" : String).data = [] := rfl

theorem tokenize_run (run : List Char) (hrun : ∀ c ∈ run, isDelimiter c = false) :
    ∀ (toks : TokenList) (cur : String),
      run.foldl tokenize_step (toks, cur) = (toks, String.mk (cur.data ++ run)) := by
  induction run with
  | nil => intro toks cur; simp
  | cons c rest ih =>
    intro toks cur
    rw [List.foldl_cons, tokenize_step_other toks cur c (hrun c (by simp)),
      ih (fun x hx => hrun x (by simp [hx]))]
    simp

theorem dropWhile_head_false {α : Type} (p : α → Bool) :
    ∀ (l : List α) (d : α) (rest : List α), l.dropWhile p = d :: rest → p d = false := by
  intro l
  induction l with
  | nil => intro d rest h; simp at h
  | cons a l ih =>
    intro d rest h
    by_cases ha : p a = true
    · simp only [List.dropWhile, ha] at h
      exact ih d rest h
    · simp only [List.dropWhile, ha] at h
      simp only [List.cons.injEq] at h
      rw [← h.1]
      simpa using ha

theorem takeWhile_all {α : Type} (p : α → Bool) (l : List α) :
    ∀ x ∈ l.takeWhile p, p x = true := by
  induction l with
  | nil => intro x hx; simp at hx
  | cons a l ih =>
    intro x hx
    by_cases ha : p a = true
    · simp only [List.takeWhile, ha] at hx
      rcases List.mem_cons.mp hx with rfl | hx
      · exact ha
      · exact ih x hx
    · simp [List.takeWhile, ha] at hx

/-- What `tokenize` has pushed, followed by the token it is still building, is the token
sequence of the specification. -/
theorem tokenize_loop_spec :
    ∀ (n : Nat) (cs : List Char), cs.length ≤ n → ∀ toks : TokenList,
      (cs.foldl tokenize_step (toks, "")).1 ++ flush_token (cs.foldl tokenize_step (toks, "")).2
        = toks ++ spec_tokenize n cs := by
  intro n
  induction n using Nat.strong_induction_on with
  | _ n ih =>
    intro cs hlen toks
    cases cs with
    | nil => cases n <;> simp [spec_tokenize, flush_token]
    | cons c cs =>
      obtain ⟨m, rfl⟩ : ∃ m, n = m + 1 := ⟨n - 1, by simp at hlen; omega⟩
      have hlen' : cs.length ≤ m := by simpa using hlen
      by_cases hsp : c = ' '
      · subst hsp
        have := ih m (Nat.lt_succ_self m) cs hlen' toks
        simpa [spec_tokenize, tokenize_step_delimiter toks "" ' ' (by decide), flush_token]
          using this
      · by_cases hpar : c = '(' ∨ c = ')'
        · have hd : isDelimiter c = true := by
            rcases hpar with rfl | rfl <;> decide
          have := ih m (Nat.lt_succ_self m) cs hlen' (toks ++ [String.singleton c])
          simpa [spec_tokenize, hsp, hpar, tokenize_step_delimiter toks "" c hd, flush_token]
            using this
        · have hnd : isDelimiter c = false := by
            simp only [isDelimiter, Bool.or_eq_false_iff, decide_eq_false_iff_not]
            exact ⟨⟨fun h => hpar (Or.inl h), fun h => hpar (Or.inr h)⟩, hsp⟩
          have hsplit : c :: cs = (c :: cs).takeWhile (fun x => !isDelimiter x)
              ++ (c :: cs).dropWhile (fun x => !isDelimiter x) :=
            (List.takeWhile_append_dropWhile _ _).symm
          have hrun : ∀ x ∈ (c :: cs).takeWhile (fun x => !isDelimiter x),
              isDelimiter x = false := by
            intro x hx
            simpa using takeWhile_all _ _ x hx
          have hrunne : (c :: cs).takeWhile (fun x => !isDelimiter x) ≠ [] := by
            simp [List.takeWhile, hnd]
          have hdroplen : ((c :: cs).dropWhile (fun x => !isDelimiter x)).length ≤ m := by
            have h1 : (c :: cs).dropWhile (fun x => !isDelimiter x)
                = cs.dropWhile (fun x => !isDelimiter x) := by
              simp [List.dropWhile, hnd]
            rw [h1]
            exact le_trans (List.Sublist.length_le (List.dropWhile_sublist _)) hlen'
          simp only [spec_tokenize, hsp, hpar, if_false]
          generalize hr : (c :: cs).takeWhile (fun x => !isDelimiter x) = run at *
          generalize hrest : (c :: cs).dropWhile (fun x => !isDelimiter x) = rest at *
          rw [hsplit, List.foldl_append, tokenize_run run hrun]
          have hflush : flush_token (String.mk run) = [String.mk run] := by
            have : 0 < run.length := List.length_pos.mpr hrunne
            simp [flush_token, String.length, this]
          cases rest with
          | nil =>
            cases m <;> simp [spec_tokenize, hflush]
          | cons d rest' =>
            have hd : isDelimiter d = true := by
              have := dropWhile_head_false _ _ d rest' hrest
              simpa using this
            obtain ⟨m', rfl⟩ : ∃ m', m = m' + 1 := ⟨m - 1, by simp at hdroplen; omega⟩
            have hlen2 : rest'.length ≤ m' := by simpa using hdroplen
            have hd' : d = '(' ∨ d = ')' ∨ d = ' ' := by
              simpa [isDelimiter, or_assoc] using hd
            have hih := ih m' (by omega) rest' hlen2
              (toks ++ [String.mk run] ++ (if d = ' ' then [] else [String.singleton d]))
            simp only [empty_string_data, List.nil_append, List.foldl_cons] at hih ⊢
            rw [tokenize_step_delimiter toks (String.mk run) d hd, hflush, hih]
            by_cases hds : d = ' '
            · simp [spec_tokenize, hds]
            · have hdp : d = '(' ∨ d = ')' := by
                rcases hd' with h | h | h
                · exact Or.inl h
                · exact Or.inr h
                · exact absurd h hds
              simp [spec_tokenize, hds, hdp]
theorem tokenize_ends_flushed (init : List Char) (d : Char) (hd : isDelimiter d = true)
    (st : TokenList × String) : ((init ++ [d]).foldl tokenize_step st).2 = "" := by
  rw [List.foldl_append]
  simp only [List.foldl_cons, List.foldl_nil]
  rw [show init.foldl tokenize_step st
    = ((init.foldl tokenize_step st).1, (init.foldl tokenize_step st).2) from rfl,
    tokenize_step_delimiter _ _ d hd]

theorem spec_tokenize_concat :
    ∀ (n : Nat) (cs : List Char), cs.length ≤ n →
      ((spec_tokenize n cs).map String.data).flatten = cs.filter (fun c => c != ' ') := by
  intro n
  induction n using Nat.strong_induction_on with
  | _ n ih =>
    intro cs hlen
    cases cs with
    | nil => cases n <;> simp [spec_tokenize]
    | cons c cs =>
      obtain ⟨m, rfl⟩ : ∃ m, n = m + 1 := ⟨n - 1, by simp at hlen; omega⟩
      have hlen' : cs.length ≤ m := by simpa using hlen
      by_cases hsp : c = ' '
      · subst hsp
        simpa [spec_tokenize] using ih m (Nat.lt_succ_self m) cs hlen'
      · by_cases hpar : c = '(' ∨ c = ')'
        · simp [spec_tokenize, hsp, hpar, String.singleton, ih m (Nat.lt_succ_self m) cs hlen']
        · have hnd : isDelimiter c = false := by
            simp only [isDelimiter, Bool.or_eq_false_iff, decide_eq_false_iff_not]
            exact ⟨⟨fun h => hpar (Or.inl h), fun h => hpar (Or.inr h)⟩, hsp⟩
          have hsplit : c :: cs = (c :: cs).takeWhile (fun x => !isDelimiter x)
              ++ (c :: cs).dropWhile (fun x => !isDelimiter x) :=
            (List.takeWhile_append_dropWhile _ _).symm
          have hrun : ∀ x ∈ (c :: cs).takeWhile (fun x => !isDelimiter x),
              (x != ' ') = true := by
            intro x hx
            have := takeWhile_all _ _ x hx
            simp only [isDelimiter, Bool.not_eq_true', Bool.or_eq_false_iff,
              decide_eq_false_iff_not] at this
            simpa using this.2
          have hdroplen : ((c :: cs).dropWhile (fun x => !isDelimiter x)).length ≤ m := by
            have h1 : (c :: cs).dropWhile (fun x => !isDelimiter x)
                = cs.dropWhile (fun x => !isDelimiter x) := by
              simp [List.dropWhile, hnd]
            rw [h1]
            exact le_trans (List.Sublist.length_le (List.dropWhile_sublist _)) hlen'
          have hih := ih m (Nat.lt_succ_self m) _ hdroplen
          simp only [spec_tokenize, hsp, hpar, if_false, List.map_cons, List.flatten_cons, hih]
          conv_rhs => rw [hsplit, List.filter_append]
          rw [List.filter_eq_self.mpr hrun]
/-- C16: for every source text that is empty or whose last character is a space or a
parenthesis, `tokenize` returns exactly the token sequence of the specification: one token
per parenthesis and one token per maximal run of characters that are neither a space nor a
parenthesis, in source order. Concatenating the tokens gives the text with its spaces
removed. For `(+ 1 2)` the result is `(`, `+`, `1`, `2`, `)`. -/
theorem tokenize_matches_specification (text : String)
    (h : text.data = [] ∨ ∃ init d, text.data = init ++ [d] ∧ isDelimiter d = true) :
    tokenize text = spec_tokenize text.data.length text.data
      ∧ ((tokenize text).map String.data).flatten = text.data.filter (fun c => c != ' ')
      ∧ tokenize "(+ 1 2)" = ["(", "+", "1", "2", ")"] := by
  have hcur : (text.data.foldl tokenize_step ([], "")).2 = "" := by
    rcases h with h | ⟨init, d, h, hd⟩
    · rw [h]
      rfl
    · rw [h]
      exact tokenize_ends_flushed init d hd _
  have hspec : tokenize text = spec_tokenize text.data.length text.data := by
    have := tokenize_loop_spec text.data.length text.data (Nat.le_refl _) []
    rw [hcur] at this
    simpa [flush_token, tokenize] using this
  refine ⟨hspec, ?_, by decide⟩
  rw [hspec]
  exact spec_tokenize_concat _ _ (Nat.le_refl _)

/-- Witness for C16: the text `(ab  c) ` with two spaces inside and one at the end. -/
theorem tokenize_matches_specification_witness :
    tokenize "(ab  c) " = ["(", "ab", "c", ")"]
      ∧ spec_tokenize 8 "(ab  c) ".data = ["(", "ab", "c", ")"] :=
  ⟨by decide,
   ((tokenize_matches_specification "(ab  c) "
      (Or.inr ⟨"(ab  c)".data, ' ', by rfl, by decide⟩)).1.symm.trans (by decide))⟩
/-! ## From source text to evaluation -/

theorem toString_int_chars (n : Int) :
    (toString n).data ≠ [] ∧ ∀ c ∈ (toString n).data, isDelimiter c = false := by
  have hdig : ∀ c : Char, c.isDigit = true → isDelimiter c = false := by
    intro c hc
    have h := isDigit_not_special c hc
    have hsp : c ≠ ' ' := by
      intro hs
      subst hs
      exact absurd hc (by decide)
    simp [isDelimiter, h.2.2.2.2.1, h.2.2.2.2.2, hsp]
  rcases toString_int_data n with ⟨_, h⟩ | ⟨_, h⟩
  · rw [h]
    exact ⟨toDigits_ne_nil _, fun c hc => hdig c (toDigits_all_isDigit _ c hc)⟩
  · rw [h]
    refine ⟨by simp, ?_⟩
    intro c hc
    rcases List.mem_cons.mp hc with rfl | hc
    · decide
    · exact hdig c (toDigits_all_isDigit _ c hc)

theorem isTokenName_chars (name : String) (h : isTokenName name = true) :
    name.data ≠ [] ∧ ∀ c ∈ name.data, isDelimiter c = false := by
  simp only [isTokenName, Bool.and_eq_true, Bool.not_eq_true', List.all_eq_true, bne_iff_ne,
    ne_eq] at h
  refine ⟨?_, ?_⟩
  · intro hnil
    rw [hnil] at h
    exact absurd h.1 (by decide)
  · intro c hc
    have := h.2 c hc
    simp [isDelimiter, this.1.1, this.1.2, this.2]

theorem tokenize_atom (run : List Char) (hne : run ≠ [])
    (hrun : ∀ c ∈ run, isDelimiter c = false) (toks : TokenList) (d : Char)
    (hd : isDelimiter d = true) (rest : List Char) :
    (run ++ d :: rest).foldl tokenize_step (toks, "")
      = (d :: rest).foldl tokenize_step (toks ++ [String.mk run], "") := by
  have hflush : flush_token (String.mk run) = [String.mk run] := by
    have : 0 < run.length := List.length_pos.mpr hne
    simp [flush_token, String.length, this]
  have hflush0 : flush_token "" = [] := by decide
  rw [List.foldl_append, tokenize_run run hrun, List.foldl_cons, List.foldl_cons,
    tokenize_step_delimiter _ _ d hd, tokenize_step_delimiter _ _ d hd]
  simp only [empty_string_data, List.nil_append, hflush, hflush0, List.append_nil]

/-- Tokenizing the source text of a tree, when a delimiter follows it, pushes the token
rendering of the tree. -/
theorem tokenize_rendering :
    ∀ e : Expr, isLiteral e = true → ∀ (toks : TokenList) (d : Char) (rest : List Char),
      isDelimiter d = true →
      (renderChars e ++ d :: rest).foldl tokenize_step (toks, "")
        = (d :: rest).foldl tokenize_step (toks ++ toTokens e, "") := by
  intro e
  refine toTokens.induct
    (fun e => isLiteral e = true → ∀ (toks : TokenList) (d : Char) (rest : List Char),
      isDelimiter d = true →
      (renderChars e ++ d :: rest).foldl tokenize_step (toks, "")
        = (d :: rest).foldl tokenize_step (toks ++ toTokens e, ""))
    (fun es => isLiteralList es = true → ∀ (toks : TokenList) (rest : List Char),
      (renderList es ++ ')' :: rest).foldl tokenize_step (toks, "")
        = (')' :: rest).foldl tokenize_step (toks ++ toTokensList es, ""))
    ?_ ?_ ?_ ?_ ?_ ?_ ?_ e
  · intro n _ toks d rest hd
    have h := toString_int_chars n
    simpa [renderChars, toTokens] using tokenize_atom _ h.1 h.2 toks d hd rest
  · intro s hs toks d rest hd
    simp only [isLiteral, Bool.and_eq_true] at hs
    have h := isTokenName_chars s hs.1
    simpa [renderChars, toTokens] using tokenize_atom _ h.1 h.2 toks d hd rest
  · intro l ih hl toks d rest hd
    simp only [isLiteral] at hl
    have hopen : tokenize_step (toks, "") '(' = (toks ++ ["("], "") := by
      rw [tokenize_step_delimiter _ _ '(' (by decide)]
      simp [flush_token]
      rfl
    have hclose : tokenize_step (toks ++ "(" :: toTokensList l, "") ')'
        = (toks ++ "(" :: (toTokensList l ++ [")"]), "") := by
      rw [tokenize_step_delimiter _ _ ')' (by decide)]
      simp [flush_token]
      rfl
    have := ih hl (toks ++ ["("]) (d :: rest)
    simp only [renderChars, toTokens, List.cons_append, List.append_assoc, List.foldl_cons,
      hopen, List.nil_append, List.singleton_append] at this ⊢
    rw [this, hclose]
  · intro lam h; simp [isLiteral] at h
  · intro lam h; simp [isLiteral] at h
  · intro _ toks rest
    simp [renderList, toTokensList]
  · intro e es ihe ihes h toks rest
    simp only [isLiteralList, Bool.and_eq_true] at h
    cases es with
    | nil =>
      have := ihe h.1 toks ')' rest (by decide)
      simpa [renderList, toTokensList] using this
    | cons e2 es2 =>
      have h1 := ihe h.1 toks ' ' (renderList (e2 :: es2) ++ ')' :: rest) (by decide)
      have h2 := ihes h.2 (toks ++ toTokens e) rest
      have hsp : tokenize_step (toks ++ toTokens e, "") ' ' = (toks ++ toTokens e, "") := by
        rw [tokenize_step_delimiter _ _ ' ' (by decide)]
        simp [flush_token]
      have hr : renderList (e :: e2 :: es2)
          = renderChars e ++ ' ' :: renderList (e2 :: es2) := by
        simp [renderList]
      rw [hr, List.append_assoc, List.cons_append, h1, List.foldl_cons, hsp, h2]
      simp [toTokensList]

/-- The tokens of the source text of a list are its token rendering. -/
theorem tokenize_source_text (l : List Expr) (hl : isLiteralList l = true) :
    tokenize (source_text (.List l)) = toTokens (.List l) := by
  have h := tokenize_rendering (.List l) (by simpa [isLiteral] using hl) [] ' ' [] (by decide)
  have hcur : ((renderChars (.List l)).foldl tokenize_step ([], "")).2 = "" := by
    have := tokenize_ends_flushed ('(' :: renderList l) ')' (by decide) ([], "")
    simpa [renderChars] using this
  rw [List.foldl_append, List.foldl_cons, List.foldl_nil, List.foldl_cons, List.foldl_nil,
    show (renderChars (.List l)).foldl tokenize_step ([], "")
      = (((renderChars (.List l)).foldl tokenize_step ([], "")).1,
          ((renderChars (.List l)).foldl tokenize_step ([], "")).2) from rfl,
    tokenize_step_delimiter _ _ ' ' (by decide), tokenize_step_delimiter _ _ ' ' (by decide),
    hcur] at h
  have h1 := congrArg Prod.fst h
  simpa [flush_token, tokenize, source_text] using h1

/-- Evaluating the source text of a list is evaluating the list. -/
theorem eval_string_source_text (fuel : Nat) (l : List Expr) (hl : isLiteralList l = true)
    (env : Environment) :
    eval_string fuel (source_text (.List l)) env = eval fuel (some (.List l)) env := by
  have hread : read_from_tokens (toTokens (.List l)) = .ret (.List l, []) := by
    have := read_rendering (.List l) (by simpa [isLiteral] using hl) []
      (2 * (toTokens (.List l)).length + 1) (by omega)
    simpa [read_from_tokens] using this
  simp [eval_string, tokenize_source_text l hl, hread]
theorem make_prelude_eq (k : Nat) : make_prelude (3 + k) = .ret prelude_globals := by
  have h : make_prelude 3 = .ret prelude_globals := by rfl
  rw [make_prelude_add_fuel 3 k (by rw [h]; simp), h]

/-- Running the source text of a list in a fresh prelude is evaluating the list in the
prelude environment. -/
theorem run_source_text (n k : Nat) (l : List Expr) (hl : isLiteralList l = true)
    (v : ExpressionPtr) (env1 : Environment) (hn : 3 ≤ n)
    (h : eval n (some (.List l)) prelude_globals = .ret (v, env1)) :
    run_single_example (n + k) (source_text (.List l)) = .ret v := by
  have hp : make_prelude (n + k) = .ret prelude_globals := by
    have : n + k = 3 + (n - 3 + k) := by omega
    rw [this]
    exact make_prelude_eq _
  simp only [run_single_example, hp, Outcome.bind, eval_string_source_text _ l hl]
  rw [eval_add_fuel n k _ _ (by rw [h]; simp), h]

theorem wrapLong_of_range (z : Int) (h1 : LONG_MIN ≤ z) (h2 : z ≤ LONG_MAX) :
    wrapLong z = z := by
  unfold wrapLong
  unfold LONG_MIN at h1
  unfold LONG_MAX at h2
  omega

theorem isLiteral_number (n : Int) (h1 : LONG_MIN ≤ n) (h2 : n ≤ LONG_MAX) :
    isLiteral (.Number n) = true := by
  simp [isLiteral, h1, h2]

/-! ## End-to-end evaluation -/

/-- C11 (the claim fails): with `a = -1`, `b = 1` and `c = 9223372036854775808`, both `a*b`
and `a*b + c` fit in a signed 64-bit integer, yet the text evaluates to
`Number(9223372036854775806)`, not to `Number(a*b + c)`, which is 9223372036854775807: the
literal `c` does not fit and `strtol` saturates it to `LONG_MAX`. -/
theorem arithmetic_with_saturated_literal :
    (LONG_MIN ≤ (-1 : Int) * 1 ∧ (-1 : Int) * 1 ≤ LONG_MAX)
      ∧ (LONG_MIN ≤ (-1 : Int) * 1 + 9223372036854775808
          ∧ (-1 : Int) * 1 + 9223372036854775808 ≤ LONG_MAX)
      ∧ "(+ (* " ++ toString (-1 : Int) ++ " " ++ toString (1 : Int) ++ ") "
            ++ toString (9223372036854775808 : Int) ++ ")"
          = "(+ (* -1 1) 9223372036854775808)"
      ∧ run_single_example 6 "(+ (* -1 1) 9223372036854775808)"
          = .ret (some (.Number 9223372036854775806))
      ∧ (-1 : Int) * 1 + 9223372036854775808 ≠ 9223372036854775806 :=
  ⟨by decide, by decide, by decide, by rfl, by decide⟩

/-- C11 (as amended): end-to-end arithmetic is exact. For all integers `a`, `b`, `c` that fit
in a signed 64-bit integer and such that `a*b` and `a*b + c` fit as well, `eval_string`
applied to the text `(+ (* a b) c)`, with `a`, `b`, `c` written as decimal literals
(negative ones with a leading minus sign), in a fresh prelude returns `Number(a*b + c)`, for
every recursion budget from 6 on; for `a = 5`, `b = 3`, `c = 20` the result is
`Number(35)`. -/
theorem arithmetic_is_exact (a b c : Int)
    (ha : LONG_MIN ≤ a ∧ a ≤ LONG_MAX) (hb : LONG_MIN ≤ b ∧ b ≤ LONG_MAX)
    (hc : LONG_MIN ≤ c ∧ c ≤ LONG_MAX)
    (hab : LONG_MIN ≤ a * b ∧ a * b ≤ LONG_MAX)
    (habc : LONG_MIN ≤ a * b + c ∧ a * b + c ≤ LONG_MAX) (k : Nat) :
    run_single_example (6 + k)
        ("(+ (* " ++ toString a ++ " " ++ toString b ++ ") " ++ toString c ++ ")")
        = .ret (some (.Number (a * b + c)))
      ∧ run_single_example (6 + k) "(+ (* 5 3) 20)" = .ret (some (.Number 35)) := by
  refine ⟨?_, run_single_example_stable (by rfl) (by simp) k⟩
  have htext : "(+ (* " ++ toString a ++ " " ++ toString b ++ ") " ++ toString c ++ ")"
      = source_text (.List [.Symbol "+", .List [.Symbol "*", .Number a, .Number b],
          .Number c]) := by
    apply String.ext
    simp [source_text, renderChars, renderList, String.data_append]
  have hplus : isLiteral (.Symbol "+") = true := by decide
  have htimes : isLiteral (.Symbol "*") = true := by decide
  have hl : isLiteralList [.Symbol "+", .List [.Symbol "*", .Number a, .Number b],
      .Number c] = true := by
    simp only [isLiteralList, isLiteral.eq_3, hplus, htimes, isLiteral_number a ha.1 ha.2,
      isLiteral_number b hb.1 hb.2, isLiteral_number c hc.1 hc.2, Bool.and_self]
  have he : eval 6 (some (.List [.Symbol "+", .List [.Symbol "*", .Number a, .Number b],
      .Number c])) prelude_globals
      = .ret (some (.Number (wrapLong (wrapLong (a * b) + c))), prelude_globals) := by rfl
  rw [wrapLong_of_range _ hab.1 hab.2, wrapLong_of_range _ habc.1 habc.2] at he
  rw [htext]
  exact run_source_text 6 k _ hl _ _ (by decide) he

/-- Witness for C11: `a = -7`, `b = 6`, `c = 2`. -/
theorem arithmetic_is_exact_witness :
    run_single_example 6
        ("(+ (* " ++ toString (-7 : Int) ++ " " ++ toString (6 : Int) ++ ") "
          ++ toString (2 : Int) ++ ")")
      = .ret (some (.Number (-7 * 6 + 2))) :=
  (arithmetic_is_exact (-7) 6 2 (by decide) (by decide) (by decide) (by decide) (by decide)
    0).1
theorem boolToLong_or_gt_eq (a b : Int) :
    boolToLong (boolToLong (decide (a > b)) != 0 || boolToLong (a == b) != 0)
      = boolToLong (decide (a ≥ b)) := by
  by_cases h1 : a > b
  · have h2 : a ≥ b := le_of_lt h1
    simp [boolToLong, h1, h2]
  · by_cases h3 : a = b
    · subst h3
      simp [boolToLong]
    · have h4 : ¬ a ≥ b := fun h => h1 (lt_of_le_of_ne h (Ne.symm h3))
      simp [boolToLong, h1, h3, h4]

theorem boolToLong_not_ge (a b : Int) :
    boolToLong (boolToLong (decide (a ≥ b)) == 0) = boolToLong (decide (a < b)) := by
  by_cases h : a ≥ b
  · have h2 : ¬ a < b := not_lt.mpr h
    simp [boolToLong, h, h2]
  · have h2 : a < b := not_le.mp h
    simp [boolToLong, h, h2]

/-- C12: the derived comparison primitives agree with their defining compositions. For all
integers `a` and `b` in the range of a signed 64-bit integer, written as decimal literals,
in a fresh prelude and for every recursion budget from 8 on: `(>= a b)` and
`(|| (> a b) (= a b))` evaluate to the same `Number`, which is 1 when `a ≥ b` and 0
otherwise; `(< a b)` and `(! (>= a b))` evaluate to the same `Number`, which is 1 when
`a < b` and 0 otherwise. -/
theorem derived_comparisons_agree (a b : Int)
    (ha : LONG_MIN ≤ a ∧ a ≤ LONG_MAX) (hb : LONG_MIN ≤ b ∧ b ≤ LONG_MAX) (k : Nat) :
    run_single_example (8 + k) ("(>= " ++ toString a ++ " " ++ toString b ++ ")")
        = .ret (some (.Number (boolToLong (decide (a ≥ b)))))
      ∧ run_single_example (8 + k)
          ("(|| (> " ++ toString a ++ " " ++ toString b ++ ") (= " ++ toString a ++ " "
            ++ toString b ++ "))")
        = .ret (some (.Number (boolToLong (decide (a ≥ b)))))
      ∧ run_single_example (8 + k) ("(< " ++ toString a ++ " " ++ toString b ++ ")")
        = .ret (some (.Number (boolToLong (decide (a < b)))))
      ∧ run_single_example (8 + k) ("(! (>= " ++ toString a ++ " " ++ toString b ++ "))")
        = .ret (some (.Number (boolToLong (decide (a < b))))) := by
  have hA := isLiteral_number a ha.1 ha.2
  have hB := isLiteral_number b hb.1 hb.2
  have hge : isLiteral (.Symbol ">=") = true := by decide
  have hgt : isLiteral (.Symbol ">") = true := by decide
  have heq : isLiteral (.Symbol "=") = true := by decide
  have hor : isLiteral (.Symbol "||") = true := by decide
  have hlt : isLiteral (.Symbol "<") = true := by decide
  have hnot : isLiteral (.Symbol "!") = true := by decide
  refine ⟨?_, ?_, ?_, ?_⟩
  · have htext : "(>= " ++ toString a ++ " " ++ toString b ++ ")"
        = source_text (.List [.Symbol ">=", .Number a, .Number b]) := by
      apply String.ext
      simp [source_text, renderChars, renderList, String.data_append]
    have he : eval 8 (some (.List [.Symbol ">=", .Number a, .Number b])) prelude_globals
        = .ret (some (.Number (boolToLong
            (boolToLong (decide (a > b)) != 0 || boolToLong (a == b) != 0))),
            prelude_globals) := by rfl
    rw [boolToLong_or_gt_eq] at he
    rw [htext]
    exact run_source_text 8 k _ (by simp only [isLiteralList, hge, hA, hB, Bool.and_self])
      _ _ (by decide) he
  · have htext : "(|| (> " ++ toString a ++ " " ++ toString b ++ ") (= " ++ toString a ++ " "
          ++ toString b ++ "))"
        = source_text (.List [.Symbol "||", .List [.Symbol ">", .Number a, .Number b],
            .List [.Symbol "=", .Number a, .Number b]]) := by
      apply String.ext
      simp [source_text, renderChars, renderList, String.data_append]
    have he : eval 8 (some (.List [.Symbol "||", .List [.Symbol ">", .Number a, .Number b],
        .List [.Symbol "=", .Number a, .Number b]])) prelude_globals
        = .ret (some (.Number (boolToLong
            (boolToLong (decide (a > b)) != 0 || boolToLong (a == b) != 0))),
            prelude_globals) := by rfl
    rw [boolToLong_or_gt_eq] at he
    rw [htext]
    exact run_source_text 8 k _
      (by simp only [isLiteralList, isLiteral.eq_3, hor, hgt, heq, hA, hB, Bool.and_self])
      _ _ (by decide) he
  · have htext : "(< " ++ toString a ++ " " ++ toString b ++ ")"
        = source_text (.List [.Symbol "<", .Number a, .Number b]) := by
      apply String.ext
      simp [source_text, renderChars, renderList, String.data_append]
    have he : eval 8 (some (.List [.Symbol "<", .Number a, .Number b])) prelude_globals
        = .ret (some (.Number (boolToLong (boolToLong
            (boolToLong (decide (a > b)) != 0 || boolToLong (a == b) != 0) == 0))),
            prelude_globals) := by rfl
    rw [boolToLong_or_gt_eq, boolToLong_not_ge] at he
    rw [htext]
    exact run_source_text 8 k _ (by simp only [isLiteralList, hlt, hA, hB, Bool.and_self])
      _ _ (by decide) he
  · have htext : "(! (>= " ++ toString a ++ " " ++ toString b ++ "))"
        = source_text (.List [.Symbol "!", .List [.Symbol ">=", .Number a, .Number b]]) := by
      apply String.ext
      simp [source_text, renderChars, renderList, String.data_append]
    have he : eval 8 (some (.List [.Symbol "!", .List [.Symbol ">=", .Number a, .Number b]]))
        prelude_globals
        = .ret (some (.Number (boolToLong (boolToLong
            (boolToLong (decide (a > b)) != 0 || boolToLong (a == b) != 0) == 0))),
            prelude_globals) := by rfl
    rw [boolToLong_or_gt_eq, boolToLong_not_ge] at he
    rw [htext]
    exact run_source_text 8 k _
      (by simp only [isLiteralList, isLiteral.eq_3, hnot, hge, hA, hB, Bool.and_self])
      _ _ (by decide) he

/-- Witness for C12: `a = 3`, `b = 0`, the example `(>= 3 0)` of `main.cpp`. -/
theorem derived_comparisons_agree_witness :
    run_single_example 8 ("(>= " ++ toString (3 : Int) ++ " " ++ toString (0 : Int) ++ ")")
      = .ret (some (.Number 1)) :=
  (derived_comparisons_agree 3 0 (by decide) (by decide) 0).1
/-- C20: a closure bound by `let` can call itself by name. For every integer `k` with
`0 ≤ k ≤ 20`, evaluating
`(let fact (lambda (n) (if (= n 0) 1 (* n (fact (- n 1))))) (fact k))`, with `k` written as
a decimal literal, in a fresh prelude returns `Number(k!)`, for every recursion budget
from 80 on. -/
theorem factorial_by_recursion (k : Nat) (hk : k ≤ 20) (j : Nat) :
    run_single_example (80 + j)
        ("(let fact (lambda (n) (if (= n 0) 1 (* n (fact (- n 1))))) (fact "
          ++ toString k ++ "))")
      = .ret (some (.Number (Nat.factorial k))) := by
  interval_cases k <;> exact run_single_example_stable (by rfl) (by simp) j

/-- Witness for C20: `k = 5`. -/
theorem factorial_by_recursion_witness :
    run_single_example 80
        "(let fact (lambda (n) (if (= n 0) 1 (* n (fact (- n 1))))) (fact 5))"
      = .ret (some (.Number 120)) :=
  factorial_by_recursion 5 (by decide) 0

/-! ## The value `atom` gives to a token -/

theorem dropWhile_append_of_all {α : Type} (p : α → Bool) (ws rest : List α)
    (hws : ∀ c ∈ ws, p c = true) (hrest : rest = [] ∨ ∃ h t, rest = h :: t ∧ p h = false) :
    (ws ++ rest).dropWhile p = rest ∧ (ws ++ rest).takeWhile p = ws := by
  induction ws with
  | nil =>
    rcases hrest with rfl | ⟨h, t, rfl, hp⟩
    · exact ⟨rfl, rfl⟩
    · simp [List.dropWhile, List.takeWhile, hp]
  | cons a ws ih =>
    have ha : p a = true := hws a (by simp)
    have := ih (fun c hc => hws c (by simp [hc]))
    simp [List.dropWhile, List.takeWhile, ha, this.1, this.2]

theorem strtol_skips_space (nptr s : List Char) (h1 : nptr.dropWhile isspace = s)
    (h2 : s.dropWhile isspace = s) (hne : s ≠ []) (hend : (strtol s).2 = []) :
    strtol nptr = strtol s := by
  unfold strtol at hend ⊢
  simp only [h1, h2] at hend ⊢
  generalize (if s.head? = some '-' ∨ s.head? = some '+' then s.tail else s) = s1 at hend ⊢
  by_cases hd : s1.takeWhile Char.isDigit = []
  · simp only [hd, if_true] at hend
    exact absurd hend hne
  · simp only [hd, if_false]

/-- The value `strtol` gives to optional white space, an optional sign and a run of
digits: the signed decimal value of the digits, saturated to the range of `long`. -/
theorem strtol_decomposed (ws sign digits : List Char) (hws : ∀ c ∈ ws, isspace c = true)
    (hsign : sign = [] ∨ sign = ['-'] ∨ sign = ['+']) (hne : digits ≠ [])
    (hd : ∀ c ∈ digits, c.isDigit = true) :
    strtol (ws ++ sign ++ digits)
      = (max LONG_MIN (min LONG_MAX
          (if sign = ['-'] then -(digitsValue digits : Int) else (digitsValue digits : Int))),
        []) := by
  obtain ⟨d, rest, hdr⟩ := List.exists_cons_of_ne_nil hne
  have hdsp : isspace d = false :=
    (isDigit_not_special d (hd d (by rw [hdr]; simp))).1
  have hhead : ∃ h t, sign ++ digits = h :: t ∧ isspace h = false := by
    rcases hsign with rfl | rfl | rfl
    · exact ⟨d, rest, by simp [hdr], hdsp⟩
    · exact ⟨'-', digits, rfl, by decide⟩
    · exact ⟨'+', digits, rfl, by decide⟩
  have hdrop : (ws ++ (sign ++ digits)).dropWhile isspace = sign ++ digits :=
    (dropWhile_append_of_all isspace ws _ hws (Or.inr hhead)).1
  have hidem : (sign ++ digits).dropWhile isspace = sign ++ digits :=
    (dropWhile_append_of_all isspace [] _ (by simp) (Or.inr hhead)).1
  have hsne : sign ++ digits ≠ [] := by
    obtain ⟨h, t, hh, _⟩ := hhead
    rw [hh]
    simp
  have hval : strtol (sign ++ digits)
      = (max LONG_MIN (min LONG_MAX
          (if sign = ['-'] then -(digitsValue digits : Int) else (digitsValue digits : Int))),
        []) := by
    rcases hsign with rfl | rfl | rfl
    · simpa using (strtol_digits digits hne hd).1
    · simpa using (strtol_digits digits hne hd).2
    · have h1 : ¬ (['+'] = ['-']) := by decide
      simpa [h1] using strtol_plus_digits digits hne hd
  rw [List.append_assoc, strtol_skips_space _ _ hdrop hidem hsne (by rw [hval]), hval]

theorem isspace_not_nul (c : Char) (h : isspace c = true) : c ≠ Char.ofNat 0 := by
  intro hc
  subst hc
  exact absurd h (by decide)

theorem c_str_before_nul (body tail : List Char) (hbody : ∀ c ∈ body, c ≠ Char.ofNat 0)
    (htail : tail = [] ∨ tail.head? = some (Char.ofNat 0)) :
    c_str (String.mk (body ++ tail)) = body := by
  unfold c_str
  refine (dropWhile_append_of_all _ body tail (fun c hc => by simpa using hbody c hc) ?_).2
  rcases htail with h | h
  · exact Or.inl h
  · cases tail with
    | nil => simp at h
    | cons a t =>
      simp only [List.head?_cons, Option.some.injEq] at h
      exact Or.inr ⟨a, t, rfl, by simp [h]⟩

/-- A name that `atom` reads as a number is empty before its first NUL, or is white space,
an optional sign and digits before its first NUL. -/
theorem readsAsNumber_decomposed (name : String) (h : readsAsNumber name = true) :
    c_str name = [] ∨ ∃ ws sign ds, c_str name = ws ++ sign ++ ds
      ∧ (∀ c ∈ ws, isspace c = true) ∧ (sign = [] ∨ sign = ['-'] ∨ sign = ['+'])
      ∧ ds ≠ [] ∧ (∀ c ∈ ds, c.isDigit = true) := by
  simp only [readsAsNumber, Bool.or_eq_true, Bool.and_eq_true, List.isEmpty_eq_true,
    Bool.not_eq_true', List.all_eq_true] at h
  rcases h with h0 | ⟨hne, hall⟩
  · exact Or.inl h0
  · right
    have hsplit : c_str name = (c_str name).takeWhile isspace ++ (c_str name).dropWhile isspace :=
      (List.takeWhile_append_dropWhile _ _).symm
    have hws : ∀ c ∈ (c_str name).takeWhile isspace, isspace c = true := takeWhile_all _ _
    generalize hs : (c_str name).dropWhile isspace = s at hne hall hsplit
    generalize (c_str name).takeWhile isspace = ws at hsplit hws
    have hne' : ∀ l : List Char, l.isEmpty = false → l ≠ [] := by
      intro l hl hnil
      rw [hnil] at hl
      exact absurd hl (by decide)
    cases s with
    | nil =>
      simp at hne
    | cons a t =>
      by_cases hm : a = '-'
      · subst hm
        simp only [List.head?_cons, true_or, if_true, List.tail_cons] at hne hall
        exact ⟨ws, ['-'], t, by rw [hsplit]; simp, hws, Or.inr (Or.inl rfl), hne' _ hne, hall⟩
      · by_cases hp : a = '+'
        · subst hp
          simp only [List.head?_cons, or_true, if_true, List.tail_cons] at hne hall
          exact ⟨ws, ['+'], t, by rw [hsplit]; simp, hws, Or.inr (Or.inr rfl), hne' _ hne, hall⟩
        · simp only [List.head?_cons, Option.some.injEq, hm, hp, or_self, if_false] at hne hall
          exact ⟨ws, [], a :: t, by rw [hsplit]; simp, hws, Or.inl rfl, by simp, hall⟩

/-- C15 (as amended): atom classification. For every token, `atom` returns a `Number` if and
only if the characters of the token before its first NUL are empty, or are optional white
space (space, tab, newline, vertical tab, form feed, carriage return), an optional sign and
one or more decimal digits. In the first case the number is 0; in the second it is the
signed decimal value of the digits, saturated to the range of `long` (so the decimal
literal of a `long` gives that `long`). For every other token `atom` returns
`Symbol(token)`. So `+`, `-`, `12abc` and `0x10` are `Symbol`s, `+12` is `Number(12)`, the
empty token is `Number(0)`, a tab or a newline before `12` gives `Number(12)`, and a tab
before `-5` gives `Number(-5)`. -/
theorem atom_classification (token : String) (digits : List Char) (hne : digits ≠ [])
    (hd : ∀ c ∈ digits, c.isDigit = true) :
    (readsAsNumber token = true →
        ∃ n, atom token = .Number n ∧ LONG_MIN ≤ n ∧ n ≤ LONG_MAX)
      ∧ (readsAsNumber token = false → atom token = .Symbol token)
      ∧ atom (String.mk digits) = .Number (max LONG_MIN (min LONG_MAX (digitsValue digits)))
      ∧ atom (String.mk ('-' :: digits))
          = .Number (max LONG_MIN (min LONG_MAX (-(digitsValue digits : Int))))
      ∧ atom (String.mk ('+' :: digits))
          = .Number (max LONG_MIN (min LONG_MAX (digitsValue digits)))
      ∧ (atom "+" = .Symbol "+" ∧ atom "-" = .Symbol "-" ∧ atom "12abc" = .Symbol "12abc"
          ∧ atom "0x10" = .Symbol "0x10" ∧ atom "+12" = .Number 12 ∧ atom "" = .Number 0
          ∧ atom (String.mk [Char.ofNat 9, '1', '2']) = .Number 12
          ∧ atom (String.mk [Char.ofNat 10, '1', '2']) = .Number 12)
      ∧ (readsAsNumber token = true →
          (c_str token = [] ∧ atom token = .Number 0)
          ∨ ∃ ws sign ds, c_str token = ws ++ sign ++ ds
              ∧ (∀ c ∈ ws, isspace c = true) ∧ (sign = [] ∨ sign = ['-'] ∨ sign = ['+'])
              ∧ ds ≠ [] ∧ (∀ c ∈ ds, c.isDigit = true)
              ∧ atom token = .Number (literal_value sign ds))
      ∧ (∀ ws sign tail : List Char, (∀ c ∈ ws, isspace c = true) →
          (sign = [] ∨ sign = ['-'] ∨ sign = ['+']) →
          (tail = [] ∨ tail.head? = some (Char.ofNat 0)) →
          atom (String.mk (ws ++ sign ++ digits ++ tail))
            = .Number (literal_value sign digits))
      ∧ (∀ tail : List Char, atom (String.mk (Char.ofNat 0 :: tail)) = .Number 0)
      ∧ (∀ n : Int, LONG_MIN ≤ n → n ≤ LONG_MAX → atom (toString n) = .Number n)
      ∧ (atom (String.mk [Char.ofNat 9, '-', '5']) = .Number (-5)
          ∧ atom " +7" = .Number 7 ∧ atom "007" = .Number 7
          ∧ atom (String.mk ['1', '2', Char.ofNat 0, 'a']) = .Number 12
          ∧ atom "99999999999999999999" = .Number LONG_MAX
          ∧ atom "-99999999999999999999" = .Number LONG_MIN) := by
  have hnul : ∀ c ∈ digits, c ≠ Char.ofNat 0 :=
    fun c hc => (isDigit_not_special c (hd c hc)).2.2.2.1
  have hs := strtol_digits digits hne hd
  refine ⟨?_, atom_of_not_readsAsNumber token, ?_, ?_, ?_,
    ⟨by rfl, by rfl, by rfl, by rfl, by rfl, by rfl, by rfl, by rfl⟩, ?_, ?_, ?_,
    atom_toString, ⟨by rfl, by rfl, by rfl, by rfl, by rfl, by rfl⟩⟩
  · intro h
    exact ⟨_, atom_of_readsAsNumber token h, strtol_value_range _⟩
  · unfold atom
    rw [c_str_of_no_nul digits hnul, hs.1]
    simp
  · have hnul2 : ∀ c ∈ '-' :: digits, c ≠ Char.ofNat 0 := by
      intro c hc
      rcases List.mem_cons.mp hc with rfl | hc
      · decide
      · exact hnul c hc
    unfold atom
    rw [c_str_of_no_nul _ hnul2, hs.2]
    simp
  · have hnul2 : ∀ c ∈ '+' :: digits, c ≠ Char.ofNat 0 := by
      intro c hc
      rcases List.mem_cons.mp hc with rfl | hc
      · decide
      · exact hnul c hc
    unfold atom
    rw [c_str_of_no_nul _ hnul2, strtol_plus_digits digits hne hd]
    simp
  · intro h
    rcases readsAsNumber_decomposed token h with h0 | ⟨ws, sign, ds, hc, hws, hsign, hdne, hdd⟩
    · left
      refine ⟨h0, ?_⟩
      unfold atom
      rw [h0]
      rfl
    · right
      refine ⟨ws, sign, ds, hc, hws, hsign, hdne, hdd, ?_⟩
      unfold atom
      rw [hc, strtol_decomposed ws sign ds hws hsign hdne hdd]
      simp [literal_value]
  · intro ws sign tail hws hsign htail
    have hbody : ∀ c ∈ ws ++ sign ++ digits, c ≠ Char.ofNat 0 := by
      intro c hc
      rcases List.mem_append.mp hc with hc | hc
      · rcases List.mem_append.mp hc with hc | hc
        · exact isspace_not_nul c (hws c hc)
        · rcases hsign with rfl | rfl | rfl
          · simp at hc
          · simp only [List.mem_singleton] at hc
            subst hc
            decide
          · simp only [List.mem_singleton] at hc
            subst hc
            decide
      · exact hnul c hc
    unfold atom
    rw [c_str_before_nul _ tail hbody htail, strtol_decomposed ws sign digits hws hsign hne hd]
    simp [literal_value]
  · intro tail
    have := c_str_before_nul [] (Char.ofNat 0 :: tail) (by simp) (Or.inr rfl)
    simp only [List.nil_append] at this
    unfold atom
    rw [this]
    rfl

/-- Witness for C15: the digits `4`, `2`; the token `-42`, and the token made of a tab and
`-42`. -/
theorem atom_classification_witness :
    atom (String.mk ('-' :: ['4', '2'])) = .Number (-42)
      ∧ atom (String.mk ([Char.ofNat 9] ++ ['-'] ++ ['4', '2'] ++ [])) = .Number (-42) :=
  ⟨(atom_classification "x" ['4', '2'] (by decide) (by decide)).2.2.2.1.trans (by rfl),
   ((atom_classification "x" ['4', '2'] (by decide) (by decide)).2.2.2.2.2.2.2.1
      [Char.ofNat 9] ['-'] [] (by decide) (by decide) (by decide)).trans (by rfl)⟩

end Lispy
